import Mathlib

/-!
Verification development for the GTFS ingestion pipeline
(`Import511Workflow.ts`, `Import511RealtimeWorkflow.ts`, `importer.ts`,
migrations `0001`–`0005`).

Text is modelled as `List Char` (the feeds are ASCII; one byte per
character), database tables as Lean lists of row structures, and the
stateful workflow steps as explicit state-passing functions.  JavaScript
truthiness (`x || y`, `if (!x)`) is modelled explicitly wherever the
source relies on it.
-/

namespace Gtfs

/-! ## CSV primitives (model of `parseCsv` / `splitCsvLine` in
`src/Import511Workflow.ts`, lines 89–134) -/

/-- Whitespace for the model of JavaScript `String.prototype.trim`
(the characters that can actually occur around a CSV field here). -/
def isWs (c : Char) : Bool :=
  c == ' ' || c == '\t' || c == '\n' || c == '\r'

/-- Trailing-whitespace strip. -/
def trimEnd (s : List Char) : List Char :=
  (s.reverse.dropWhile isWs).reverse

/-- Model of `line.trim()`. -/
def trim (s : List Char) : List Char :=
  trimEnd (s.dropWhile isWs)

/-- Model of `text.replace(/\r/g, "")`. -/
def removeCr (s : List Char) : List Char :=
  s.filter (fun c => c != '\r')

/-- Prepend a character to the first segment of a segment list. -/
def consHead (c : Char) : List (List Char) → List (List Char)
  | [] => [[c]]
  | s :: ss => (c :: s) :: ss

/-- Model of `text.split("\n")`: the (possibly empty) segments between
newline characters.  Like the JavaScript original it never returns an
empty list: `splitOnNl [] = [[]]`. -/
def splitOnNl : List Char → List (List Char)
  | [] => [[]]
  | c :: rest =>
    if c = '\n' then [] :: splitOnNl rest else consHead c (splitOnNl rest)

/-- Model of `text.indexOf("\n")`, returning `none` for `-1`. -/
def firstNl : List Char → Option Nat
  | [] => none
  | c :: rest =>
    if c = '\n' then some 0 else (firstNl rest).map (· + 1)

/-- Model of `text.lastIndexOf("\n")`, returning `none` for `-1`. -/
def lastNl : List Char → Option Nat
  | [] => none
  | c :: rest =>
    match lastNl rest with
    | some j => some (j + 1)
    | none => if c = '\n' then some 0 else none

/-- The cleaned logical lines of a CSV text: carriage returns removed,
split on `\n`, each line trimmed, blank lines dropped
(`parseCsv`, lines 117–121). -/
def csvLines (text : List Char) : List (List Char) :=
  ((splitOnNl (removeCr text)).map trim).filter (fun l => !l.isEmpty)

/-- Field splitter state machine of `splitCsvLine` (lines 89–113):
a quote toggles `inQuotes`, a doubled quote inside quotes emits a quote,
a comma outside quotes ends the field. -/
def splitFields (s : List Char) (inQ : Bool) (cur : List Char) :
    List (List Char) :=
  match s, inQ with
  | [], _ => [cur]
  | '"' :: '"' :: rest2, true => splitFields rest2 true (cur ++ ['"'])
  | '"' :: rest, iq => splitFields rest (!iq) cur
  | ',' :: rest, false => cur :: splitFields rest false []
  | c :: rest, iq => splitFields rest iq (cur ++ [c])

/-- Model of `splitCsvLine`: split into fields, then `.map(f => f.trim())`. -/
def splitCsvLine (line : List Char) : List (List Char) :=
  (splitFields line false []).map trim

/-- A parsed CSV row: the header-to-value assignments made by
`headers.forEach((h, idx) => row[h] = values[idx] ?? "")`. -/
abbrev Row := List (List Char × List Char)

/-- Build one row from the header list and the value list
(missing values become the empty string). -/
def mkRow (headers vals : List (List Char)) : Row :=
  headers.enum.map (fun p => (p.2, vals.getD p.1 []))

/-- Model of `parseCsv` (lines 116–134): first cleaned line is the
header, every further cleaned line becomes a row. -/
def parseCsv (text : List Char) : List Row :=
  match csvLines text with
  | [] => []
  | h :: rest => rest.map (fun line => mkRow (splitCsvLine h) (splitCsvLine line))

/-! ## Chunked file consumption (model of the byte-range loops in
`src/Import511Workflow.ts`; the stop_times instance is lines 1139–1289,
the stops/trips/shapes loops are textually identical). -/

/-- Header recovery for a resumed chunk (lines 1156–1167): read the
first 4096 bytes of the object and take the text before the first
newline, trimmed; if no newline is found the header stays empty. -/
def headRecover (file : List Char) : List Char :=
  let headText := file.take 4096
  match firstNl headText with
  | some i => trim (headText.take i)
  | none => []

/-- The cut of a fetched range (lines 1175–1185): when this is not the
final chunk, keep the text before the last newline and count the bytes
up to and including it; otherwise (or when the range holds no newline)
keep the whole text. -/
def cutChunk (text0 : List Char) (notLast : Bool) : List Char × Nat :=
  if notLast then
    match lastNl text0 with
    | some j => (text0.take j, j + 1)
    | none => (text0, text0.length)
  else (text0, text0.length)

/-- Header capture on the first chunk (lines 1188–1193): the text
before the first newline of the (already cut) chunk, trimmed. -/
def captureHeader (text : List Char) (isFirst : Bool) (cur : List Char) :
    List Char :=
  if isFirst then
    match firstNl text with
    | some i => trim (text.take i)
    | none => cur
  else cur

/-- One iteration of the chunk loop: returns the number of bytes
consumed, the running header, and the rows parsed from this chunk
(the header is prepended for non-first chunks, lines 1196–1201). -/
def chunkStep (file : List Char) (c offset : Nat) (headerLine : List Char) :
    Nat × List Char × List Row :=
  let size := file.length
  let isFirst : Bool := offset == 0
  let len := min c (size - offset)
  let currentHeader :=
    if !isFirst && headerLine.isEmpty then headRecover file else headerLine
  let text0 := (file.drop offset).take len
  let cut := cutChunk text0 (decide (offset + len < size))
  let header := captureHeader cut.1 isFirst currentHeader
  let csv :=
    if !isFirst && !header.isEmpty then header ++ '\n' :: cut.1 else cut.1
  (cut.2, header, parseCsv csv)

theorem cutChunk_snd_pos (text0 : List Char) (b : Bool)
    (h : 0 < text0.length) : 0 < (cutChunk text0 b).2 := by
  unfold cutChunk
  split
  · cases hl : lastNl text0 <;> simp [hl, h]
  · simpa using h

theorem chunkStep_fst_pos (file : List Char) (c offset : Nat)
    (hd : List Char) (hc : 0 < c) (ho : offset < file.length) :
    0 < (chunkStep file c offset hd).1 := by
  unfold chunkStep
  refine cutChunk_snd_pos _ _ ?_
  simp only [List.length_take, List.length_drop]
  omega

/-- The chunk loop (`while (offset < size)`), consuming the file from
`offset` with the carried running header and collecting all parsed
rows.  The loop is written with a fuel argument so that it is
structurally recursive; by `chunkStep_fst_pos` every iteration with a
positive chunk size consumes at least one byte, so fuel `file.length`
always suffices. -/
def chunkedGo (fuel : Nat) (file : List Char) (c offset : Nat)
    (headerLine : List Char) : List Row :=
  match fuel with
  | 0 => []
  | fuel + 1 =>
    if offset < file.length then
      let r := chunkStep file c offset headerLine
      r.2.2 ++ chunkedGo fuel file c (offset + r.1) r.2.1
    else []

/-- Parsing a whole table file through the chunked reader with chunk
size `c`. -/
def chunkedRows (file : List Char) (c : Nat) : List Row :=
  chunkedGo file.length file c 0 []

/-- The first raw line segment of a text (everything before the first
newline; the whole text if there is none). -/
def firstSeg (s : List Char) : List Char :=
  s.takeWhile (fun c => c != '\n')

/-! ## Infrastructure lemmas about line splitting -/

theorem splitOnNl_ne_nil (s : List Char) : splitOnNl s ≠ [] := by
  induction s with
  | nil => simp [splitOnNl]
  | cons c rest ih =>
    simp only [splitOnNl]
    split
    · simp
    · unfold consHead
      cases h : splitOnNl rest <;> simp

theorem consHead_append (c : Char) (l l2 : List (List Char)) (h : l ≠ []) :
    consHead c (l ++ l2) = consHead c l ++ l2 := by
  cases l with
  | nil => exact absurd rfl h
  | cons s ss => simp [consHead]

theorem splitOnNl_append_nl (a b : List Char) :
    splitOnNl (a ++ '\n' :: b) = splitOnNl a ++ splitOnNl b := by
  induction a with
  | nil => simp [splitOnNl]
  | cons c rest ih =>
    by_cases hc : c = '\n'
    · subst hc
      simp [splitOnNl, ih]
    · simp [splitOnNl, if_neg hc, ih,
        consHead_append c (splitOnNl rest) (splitOnNl b) (splitOnNl_ne_nil rest)]

theorem splitOnNl_eq_single (s : List Char) (h : '\n' ∉ s) :
    splitOnNl s = [s] := by
  induction s with
  | nil => rfl
  | cons c rest ih =>
    have hc : c ≠ '\n' := fun hh => h (hh ▸ List.mem_cons_self c rest)
    have hrest : '\n' ∉ rest := fun hh => h (List.mem_cons_of_mem c hh)
    simp [splitOnNl, if_neg hc, ih hrest, consHead]

theorem splitOnNl_cons_firstSeg (s : List Char) :
    ∃ tl, splitOnNl s = firstSeg s :: tl := by
  induction s with
  | nil => exact ⟨[], rfl⟩
  | cons c rest ih =>
    by_cases hc : c = '\n'
    · subst hc
      refine ⟨splitOnNl rest, ?_⟩
      simp [splitOnNl, firstSeg]
    · obtain ⟨tl, htl⟩ := ih
      refine ⟨tl, ?_⟩
      have hb : (c != '\n') = true := by simpa using hc
      simp [splitOnNl, if_neg hc, htl, consHead, firstSeg, List.takeWhile, hb]

theorem nl_not_mem_firstSeg (s : List Char) : '\n' ∉ firstSeg s := by
  intro h
  have := List.mem_takeWhile_imp h
  simp at this

/-- Decomposition of a text containing a newline into its first
segment, the newline, and the remainder. -/
theorem firstSeg_decomp (s : List Char) (h : '\n' ∈ s) :
    s = firstSeg s ++ '\n' :: s.drop ((firstSeg s).length + 1) := by
  induction s with
  | nil => cases h
  | cons c rest ih =>
    by_cases hc : c = '\n'
    · subst hc
      simp [firstSeg]
    · have hb : (c != '\n') = true := by simpa using hc
      have hrest : '\n' ∈ rest := by
        rcases List.mem_cons.mp h with h1 | h1
        · exact absurd h1.symm hc
        · exact h1
      have := ih hrest
      simp only [firstSeg, List.takeWhile, hb] at *
      conv_lhs => rw [this]
      simp

theorem firstNl_eq_none (s : List Char) (h : '\n' ∉ s) :
    firstNl s = none := by
  induction s with
  | nil => rfl
  | cons c rest ih =>
    have hc : c ≠ '\n' := fun hh => h (hh ▸ List.mem_cons_self c rest)
    have hrest : '\n' ∉ rest := fun hh => h (List.mem_cons_of_mem c hh)
    simp [firstNl, if_neg hc, ih hrest]

theorem firstNl_append_nl (a b : List Char) (h : '\n' ∉ a) :
    firstNl (a ++ '\n' :: b) = some a.length := by
  induction a with
  | nil => simp [firstNl]
  | cons c rest ih =>
    have hc : c ≠ '\n' := fun hh => h (hh ▸ List.mem_cons_self c rest)
    have hrest : '\n' ∉ rest := fun hh => h (List.mem_cons_of_mem c hh)
    simp [firstNl, if_neg hc, ih hrest]

theorem lastNl_append_nl_none (a b : List Char) (hb : lastNl b = none) :
    lastNl (a ++ '\n' :: b) = some a.length := by
  induction a with
  | nil => simp [lastNl, hb]
  | cons c rest ih => simp [lastNl, ih]

theorem lastNl_append_nl_some (a b : List Char) (k : Nat)
    (hb : lastNl b = some k) :
    lastNl (a ++ '\n' :: b) = some (a.length + 1 + k) := by
  induction a with
  | nil => simp [lastNl, hb]; omega
  | cons c rest ih => simp [lastNl, ih]; omega

/-- Whenever a decomposition at a newline is known, `lastIndexOf("\n")`
succeeds and names a position at or after that newline. -/
theorem lastNl_ge (a b : List Char) :
    ∃ j, lastNl (a ++ '\n' :: b) = some j ∧ a.length ≤ j := by
  cases hb : lastNl b with
  | none => exact ⟨a.length, lastNl_append_nl_none a b hb, le_refl _⟩
  | some k =>
    exact ⟨a.length + 1 + k, lastNl_append_nl_some a b k hb, by omega⟩

/-- A successful `lastIndexOf("\n")` names a newline position: the text
splits there. -/
theorem lastNl_spec (s : List Char) (j : Nat) (h : lastNl s = some j) :
    j < s.length ∧ s = s.take j ++ '\n' :: s.drop (j + 1) := by
  induction s generalizing j with
  | nil => cases h
  | cons c rest ih =>
    simp only [lastNl] at h
    cases hr : lastNl rest with
    | some j' =>
      rw [hr] at h
      injection h with h
      subst h
      obtain ⟨hlt, hdec⟩ := ih j' hr
      constructor
      · simpa using Nat.succ_lt_succ hlt
      · conv_lhs => rw [hdec]
        simp
    | none =>
      rw [hr] at h
      by_cases hc : c = '\n'
      · rw [if_pos hc] at h
        injection h with h
        subst h
        subst hc
        simp
      · rw [if_neg hc] at h
        cases h

/-! ## Whitespace and trim lemmas -/

theorem dropWhile_ws_append (w t : List Char) (hw : ∀ c ∈ w, isWs c = true) :
    (w ++ t).dropWhile isWs = t.dropWhile isWs := by
  induction w with
  | nil => rfl
  | cons c rest ih =>
    have hc := hw c (List.mem_cons_self c rest)
    simpa [List.dropWhile_cons, hc] using
      ih (fun d hd => hw d (List.mem_cons_of_mem c hd))

theorem dropWhile_ws_eq_nil (w : List Char) (hw : ∀ c ∈ w, isWs c = true) :
    w.dropWhile isWs = [] := by
  have := dropWhile_ws_append w [] hw
  simpa using this

theorem trim_ws_append (w t : List Char) (hw : ∀ c ∈ w, isWs c = true) :
    trim (w ++ t) = trim t := by
  unfold trim
  rw [dropWhile_ws_append w t hw]

theorem trimEnd_append_ws (t w : List Char) (hw : ∀ c ∈ w, isWs c = true) :
    trimEnd (t ++ w) = trimEnd t := by
  unfold trimEnd
  rw [List.reverse_append,
    dropWhile_ws_append _ _ (fun c hc => hw c (List.mem_reverse.mp hc))]

theorem trim_append_ws (t w : List Char) (hw : ∀ c ∈ w, isWs c = true) :
    trim (t ++ w) = trim t := by
  unfold trim
  rw [List.dropWhile_append]
  by_cases hd : (t.dropWhile isWs).isEmpty
  · rw [if_pos hd, List.isEmpty_iff.mp hd, dropWhile_ws_eq_nil w hw]
  · rw [if_neg hd]
    exact trimEnd_append_ws _ _ hw

theorem ws_of_mem_takeWhile (s : List Char) :
    ∀ c ∈ s.takeWhile isWs, isWs c = true :=
  fun _ hc => List.mem_takeWhile_imp hc

/-- Every text is an all-whitespace margin around its trim. -/
theorem exists_trim_decomp (s : List Char) :
    ∃ p q, s = p ++ trim s ++ q ∧ (∀ c ∈ p, isWs c = true) ∧
      (∀ c ∈ q, isWs c = true) := by
  refine ⟨s.takeWhile isWs,
    ((s.dropWhile isWs).reverse.takeWhile isWs).reverse, ?_,
    ws_of_mem_takeWhile s, ?_⟩
  · have h1 : s = s.takeWhile isWs ++ s.dropWhile isWs :=
      (List.takeWhile_append_dropWhile isWs s).symm
    have h2 : (s.dropWhile isWs).reverse =
        (s.dropWhile isWs).reverse.takeWhile isWs ++
          (s.dropWhile isWs).reverse.dropWhile isWs :=
      (List.takeWhile_append_dropWhile isWs _).symm
    have h3 : s.dropWhile isWs =
        trim s ++ ((s.dropWhile isWs).reverse.takeWhile isWs).reverse := by
      unfold trim trimEnd
      conv_lhs => rw [← List.reverse_reverse (s.dropWhile isWs)]
      conv_lhs => rw [h2]
      rw [List.reverse_append]
    conv_lhs => rw [h1, h3]
    rw [List.append_assoc]
  · exact fun c hc =>
      List.mem_takeWhile_imp (List.mem_reverse.mp hc)

theorem ws_of_mem_removeCr (w : List Char) (hw : ∀ c ∈ w, isWs c = true) :
    ∀ c ∈ removeCr w, isWs c = true :=
  fun c hc => hw c (List.mem_of_mem_filter hc)

theorem removeCr_append (a b : List Char) :
    removeCr (a ++ b) = removeCr a ++ removeCr b :=
  List.filter_append a b

/-- Trimming before stripping carriage returns commutes with the
normalisation done inside `parseCsv` (strip, then trim): the captured
running header and the raw header line normalise identically. -/
theorem trim_removeCr_trim (s : List Char) :
    trim (removeCr (trim s)) = trim (removeCr s) := by
  obtain ⟨p, q, hdec, hp, hq⟩ := exists_trim_decomp s
  conv_rhs => rw [hdec]
  rw [removeCr_append, trim_append_ws _ _ (ws_of_mem_removeCr q hq),
    removeCr_append, trim_ws_append _ _ (ws_of_mem_removeCr p hp)]

theorem mem_trim (s : List Char) (c : Char) (h : c ∈ trim s) : c ∈ s := by
  unfold trim trimEnd at h
  have h1 := List.mem_reverse.mp h
  have h2 := (List.dropWhile_sublist isWs).subset h1
  have h3 := List.mem_reverse.mp h2
  exact (List.dropWhile_sublist isWs).subset h3

theorem trim_nil : trim ([] : List Char) = [] := rfl

theorem removeCr_nil : removeCr ([] : List Char) = [] := rfl

/-! ## csvLines decomposition lemmas -/

theorem removeCr_cons_nl (b : List Char) :
    removeCr ('\n' :: b) = '\n' :: removeCr b := by
  simp [removeCr, List.filter_cons]

theorem nl_not_mem_removeCr (s : List Char) (h : '\n' ∉ s) :
    '\n' ∉ removeCr s :=
  fun hc => h (List.mem_of_mem_filter hc)

theorem csvLines_nil : csvLines [] = [] := rfl

theorem csvLines_append_nl (a b : List Char) :
    csvLines (a ++ '\n' :: b) = csvLines a ++ csvLines b := by
  unfold csvLines
  rw [removeCr_append, removeCr_cons_nl, splitOnNl_append_nl,
    List.map_append, List.filter_append]

theorem csvLines_single (s : List Char) (hnl : '\n' ∉ s)
    (hne : trim (removeCr s) ≠ []) :
    csvLines s = [trim (removeCr s)] := by
  unfold csvLines
  rw [splitOnNl_eq_single _ (nl_not_mem_removeCr s hnl)]
  simp [hne]

/-- The rows of a chunk under a fixed header row.  `parseCsv` applied
to a header line followed by further lines computes exactly this. -/
def rowsWith (hs : List (List Char)) (text : List Char) : List Row :=
  (csvLines text).map (fun line => mkRow hs (splitCsvLine line))

theorem rowsWith_nil (hs : List (List Char)) : rowsWith hs [] = [] := rfl

theorem rowsWith_append_nl (hs : List (List Char)) (a b : List Char) :
    rowsWith hs (a ++ '\n' :: b) = rowsWith hs a ++ rowsWith hs b := by
  unfold rowsWith
  rw [csvLines_append_nl, List.map_append]

theorem parseCsv_with_header (hd text : List Char) (hnl : '\n' ∉ hd)
    (hne : trim (removeCr hd) ≠ []) :
    parseCsv (hd ++ '\n' :: text) =
      rowsWith (splitCsvLine (trim (removeCr hd))) text := by
  unfold parseCsv
  rw [csvLines_append_nl, csvLines_single hd hnl hne]
  rfl

theorem parseCsv_single (s : List Char) (hnl : '\n' ∉ s)
    (hne : trim (removeCr s) ≠ []) :
    parseCsv s = [] := by
  unfold parseCsv
  rw [csvLines_single s hnl hne]
  simp

/-- The whole-file parse, written as rows-under-the-header-line. -/
theorem parseCsv_decomp (file : List Char) (hnl : '\n' ∈ file)
    (hne : trim (removeCr (firstSeg file)) ≠ []) :
    parseCsv file =
      rowsWith (splitCsvLine (trim (removeCr (firstSeg file))))
        (file.drop ((firstSeg file).length + 1)) := by
  conv_lhs => rw [firstSeg_decomp file hnl]
  exact parseCsv_with_header _ _ (nl_not_mem_firstSeg file) hne

/-! ## Behaviour of one chunk step when the offset sits at a line start -/

theorem firstSeg_of_not_mem (s : List Char) (h : '\n' ∉ s) :
    firstSeg s = s := by
  induction s with
  | nil => rfl
  | cons c rest ih =>
    have hc : c ≠ '\n' := fun hh => h (hh ▸ List.mem_cons_self c rest)
    have hb : (c != '\n') = true := by simpa using hc
    have hrest : '\n' ∉ rest := fun hh => h (List.mem_cons_of_mem c hh)
    simp [firstSeg, List.takeWhile, hb] at *
    exact ih hrest

theorem currentHeader_eq (file hd hd0 : List Char) (offset : Nat)
    (h0 : 0 < offset) (hhd0 : hd0 ≠ [])
    (hmatch : hd = hd0 ∨ (hd = [] ∧ headRecover file = hd0)) :
    (if !(offset == 0) && hd.isEmpty then headRecover file else hd) = hd0 := by
  have hof : (offset == 0) = false := by
    simp [Nat.pos_iff_ne_zero.mp h0]
  have hie : hd0.isEmpty = false :=
    Bool.eq_false_iff.mpr (fun hbt => hhd0 (List.isEmpty_iff.mp hbt))
  rcases hmatch with h | ⟨h1, h2⟩
  · subst h
    simp [hof, hie]
  · subst h1
    simp [hof, h2]

/-- The final chunk of a file (everything left fits in one fetch):
the whole remainder is consumed, the header carries over, and the rows
come from the header line plus the remainder. -/
theorem chunkStep_last (file rest hd hd0 : List Char) (c offset : Nat)
    (hdrop : file.drop offset = rest) (h0 : 0 < offset)
    (hrest : rest ≠ []) (hfit : rest.length ≤ c) (hhd0 : hd0 ≠ [])
    (hmatch : hd = hd0 ∨ (hd = [] ∧ headRecover file = hd0)) :
    chunkStep file c offset hd =
      (rest.length, hd0, parseCsv (hd0 ++ '\n' :: rest)) := by
  have hlenr : rest.length = file.length - offset := by
    rw [← hdrop, List.length_drop]
  have hol : offset < file.length := by
    rcases Nat.lt_or_ge offset file.length with h | h
    · exact h
    · exact absurd (hdrop ▸ List.drop_eq_nil_of_le h) hrest
  have hof : (offset == 0) = false := by
    simp [Nat.pos_iff_ne_zero.mp h0]
  have hrpos : 0 < rest.length := List.length_pos.mpr hrest
  have hie : hd0.isEmpty = false :=
    Bool.eq_false_iff.mpr (fun hbt => hhd0 (List.isEmpty_iff.mp hbt))
  simp only [chunkStep]
  rw [currentHeader_eq file hd hd0 offset h0 hhd0 hmatch]
  have hmin : min c (file.length - offset) = rest.length := by
    rw [← hlenr]
    omega
  rw [hmin, hdrop, List.take_length]
  have hdec : decide (offset + rest.length < file.length) = false :=
    decide_eq_false (by omega)
  rw [hdec]
  have hcut : cutChunk rest false = (rest, rest.length) := by
    simp [cutChunk]
  rw [hcut]
  simp [captureHeader, hof, hie]

/-- A middle chunk: the fetch window starts at a line boundary, every
line is shorter than the window, so the window contains a newline; the
step cuts at the last one, which is again a line boundary. -/
theorem chunkStep_mid (file rest hd hd0 : List Char) (c offset : Nat)
    (hdrop : file.drop offset = rest) (h0 : 0 < offset)
    (hbig : c < rest.length) (hfs : (firstSeg rest).length < c)
    (hhd0 : hd0 ≠ [])
    (hmatch : hd = hd0 ∨ (hd = [] ∧ headRecover file = hd0)) :
    ∃ j, chunkStep file c offset hd =
        (j + 1, hd0, parseCsv (hd0 ++ '\n' :: rest.take j)) ∧
      rest = rest.take j ++ '\n' :: rest.drop (j + 1) ∧ j ≤ c := by
  have hlenr : rest.length = file.length - offset := by
    rw [← hdrop, List.length_drop]
  have hol : offset < file.length := by omega
  have hof : (offset == 0) = false := by
    simp [Nat.pos_iff_ne_zero.mp h0]
  have hie : hd0.isEmpty = false :=
    Bool.eq_false_iff.mpr (fun hbt => hhd0 (List.isEmpty_iff.mp hbt))
  -- rest contains a newline right after its first segment
  have hnlr : '\n' ∈ rest := by
    by_contra hno
    rw [firstSeg_of_not_mem rest hno] at hfs
    omega
  have hrdec0 : rest = firstSeg rest ++
      '\n' :: rest.drop ((firstSeg rest).length + 1) :=
    firstSeg_decomp rest hnlr
  -- the fetch window contains that newline
  have hwin : rest.take c = firstSeg rest ++
      '\n' :: (rest.drop ((firstSeg rest).length + 1)).take
        (c - (firstSeg rest).length - 1) := by
    conv_lhs => rw [hrdec0]
    rw [List.take_append_eq_append_take,
      List.take_of_length_le (by omega : (firstSeg rest).length ≤ c)]
    obtain ⟨k, hk⟩ : ∃ k, c - (firstSeg rest).length = k + 1 :=
      ⟨c - (firstSeg rest).length - 1, by omega⟩
    rw [hk, List.take_succ_cons]
    have hkk : k = c - (firstSeg rest).length - 1 := by omega
    subst hkk
    rfl
  obtain ⟨j, hj, hji⟩ : ∃ j, lastNl (rest.take c) = some j ∧
      (firstSeg rest).length ≤ j := by
    rw [hwin]
    exact lastNl_ge (firstSeg rest) _
  have hjlen := lastNl_spec (rest.take c) j hj
  have htlen : (rest.take c).length = min c rest.length :=
    List.length_take c rest
  have hjc : j ≤ c := by omega
  have hjr : j ≤ rest.length := by omega
  have htake : (rest.take c).take j = rest.take j := by
    rw [List.take_take]
    congr 1
    omega
  -- the cut is at a line boundary of `rest`
  have hrest_eq : rest = rest.take j ++
      '\n' :: ((rest.take c).drop (j + 1) ++ rest.drop c) := by
    conv_lhs => rw [← List.take_append_drop c rest]
    conv_lhs => rw [hjlen.2]
    rw [htake, List.append_assoc, List.cons_append]
  have hdropj : rest.drop (j + 1) =
      (rest.take c).drop (j + 1) ++ rest.drop c := by
    conv_lhs => rw [hrest_eq]
    rw [List.drop_append_eq_append_drop]
    have h1 : (rest.take j).length = j := by
      rw [List.length_take]; omega
    rw [List.drop_eq_nil_of_le (by omega), h1]
    have h2 : j + 1 - j = 1 := by omega
    rw [h2]
    simp
  refine ⟨j, ?_, ?_, hjc⟩
  · simp only [chunkStep]
    rw [currentHeader_eq file hd hd0 offset h0 hhd0 hmatch]
    have hmin : min c (file.length - offset) = c := by
      rw [← hlenr]; omega
    rw [hmin, hdrop]
    have hdec : decide (offset + c < file.length) = true :=
      decide_eq_true (by omega)
    rw [hdec]
    have hcut : cutChunk (rest.take c) true = ((rest.take c).take j, j + 1) := by
      simp [cutChunk, hj]
    rw [hcut]
    simp [captureHeader, hof, hie, htake]
  · rw [hdropj]
    exact hrest_eq

/-- The chunk loop does nothing once the offset has reached the end of
the file, whatever fuel is left. -/
theorem chunkedGo_stop (fuel : Nat) (file : List Char) (c offset : Nat)
    (hd : List Char) (h : file.length ≤ offset) :
    chunkedGo fuel file c offset hd = [] := by
  cases fuel with
  | zero => rfl
  | succ f => simp [chunkedGo, Nat.not_lt.mpr h]

/-- Loop invariant of the chunk consumer: once the offset sits at a
line boundary past the header line and the running header is carried
(or recoverable), the remaining chunks produce exactly the rows of the
remaining text under that header — provided every line of the
remaining text is shorter than the chunk size. -/
theorem chunkedGo_rowsWith (c : Nat) (file hd0 : List Char)
    (hhd0nl : '\n' ∉ hd0) (hhd0ne : trim (removeCr hd0) ≠ []) :
    ∀ fuel rest offset hd, rest.length ≤ fuel →
      file.drop offset = rest → 0 < offset →
      (hd = hd0 ∨ (hd = [] ∧ headRecover file = hd0)) →
      (∀ seg ∈ splitOnNl rest, seg.length < c) →
      chunkedGo fuel file c offset hd =
        rowsWith (splitCsvLine (trim (removeCr hd0))) rest := by
  have hhd0 : hd0 ≠ [] := by
    intro h
    rw [h] at hhd0ne
    exact hhd0ne rfl
  intro fuel
  induction fuel with
  | zero =>
    intro rest offset hd hn hdrop h0 hmatch hseg
    have hre : rest = [] := by
      cases rest with
      | nil => rfl
      | cons a l => simp at hn
    subst hre
    rfl
  | succ fuel ih =>
    intro rest offset hd hn hdrop h0 hmatch hseg
    by_cases hrest : rest = []
    · subst hrest
      have hge : file.length ≤ offset := by
        rcases Nat.lt_or_ge offset file.length with h | h
        · exfalso
          have : (file.drop offset).length = file.length - offset :=
            List.length_drop offset file
          rw [hdrop] at this
          simp at this
          omega
        · exact h
      rw [chunkedGo_stop _ _ _ _ _ hge]
      rfl
    · have hlt : offset < file.length := by
        rcases Nat.lt_or_ge offset file.length with h | h
        · exact h
        · exact absurd (hdrop ▸ List.drop_eq_nil_of_le h) hrest
      have hrp : 0 < rest.length := List.length_pos.mpr hrest
      simp only [chunkedGo]
      rw [if_pos hlt]
      rcases Nat.lt_or_ge c rest.length with hbig | hfit
      · -- middle chunk: cut at the last newline of the window
        have hfs : (firstSeg rest).length < c := by
          obtain ⟨tl, htl⟩ := splitOnNl_cons_firstSeg rest
          exact hseg _ (htl ▸ List.mem_cons_self _ _)
        obtain ⟨j, hstep, hrdec, hjc⟩ :=
          chunkStep_mid file rest hd hd0 c offset hdrop h0 hbig hfs hhd0
            hmatch
        rw [hstep]
        simp only
        have hrows : parseCsv (hd0 ++ '\n' :: rest.take j) =
            rowsWith (splitCsvLine (trim (removeCr hd0))) (rest.take j) :=
          parseCsv_with_header hd0 _ hhd0nl hhd0ne
        rw [hrows]
        have hdrop2 : file.drop (offset + (j + 1)) = rest.drop (j + 1) := by
          rw [← List.drop_drop, hdrop]
        have hlen2 : (rest.drop (j + 1)).length ≤ fuel := by
          have := List.length_drop (j + 1) rest
          omega
        have hseg2 : ∀ seg ∈ splitOnNl (rest.drop (j + 1)),
            seg.length < c := by
          intro seg hmem
          apply hseg
          rw [hrdec, splitOnNl_append_nl]
          exact List.mem_append_right _ hmem
        rw [ih (rest.drop (j + 1)) (offset + (j + 1)) hd0 hlen2 hdrop2
          (by omega) (Or.inl rfl) hseg2]
        conv_rhs => rw [hrdec]
        rw [rowsWith_append_nl]
      · -- final chunk: everything left fits in one fetch
        rw [chunkStep_last file rest hd hd0 c offset hdrop h0 hrest hfit
          hhd0 hmatch]
        simp only
        have hrows : parseCsv (hd0 ++ '\n' :: rest) =
            rowsWith (splitCsvLine (trim (removeCr hd0))) rest :=
          parseCsv_with_header hd0 _ hhd0nl hhd0ne
        rw [hrows]
        have hend : chunkedGo fuel file c (offset + rest.length) hd0 = [] := by
          apply chunkedGo_stop
          have : rest.length = file.length - offset := by
            rw [← hdrop, List.length_drop]
          omega
        rw [hend, List.append_nil]

theorem take_length_of_append {α : Type} (l A t : List α) (jj : Nat)
    (h : l = A ++ t) (hj : A.length = jj) : l.take jj = A := by
  rw [h, ← hj, List.take_left]

/-- A file fitting in one fetch window is parsed whole by the first
chunk. -/
theorem chunkStep_first_small (file : List Char) (c : Nat)
    (hne : file ≠ []) (hfit : file.length ≤ c) :
    ∃ hdr, chunkStep file c 0 [] = (file.length, hdr, parseCsv file) := by
  have hpos : 0 < file.length := List.length_pos.mpr hne
  refine ⟨captureHeader file true [], ?_⟩
  simp only [chunkStep]
  have hmin : min c (file.length - 0) = file.length := by omega
  rw [hmin, List.drop_zero, List.take_length]
  have hdec : decide (0 + file.length < file.length) = false :=
    decide_eq_false (by omega)
  rw [hdec]
  have hcut : cutChunk file false = (file, file.length) := by
    simp [cutChunk]
  rw [hcut]
  simp

/-- The first chunk of a large file: the window holds the whole header
line, the cut lands at a newline at or after the header's end, and the
chunk parses the cut prefix on its own.  The captured header is the
trimmed header line — except when the cut is exactly the header's
newline, in which case the chunk is header-only and the carried header
stays empty. -/
theorem chunkStep_first_big (file : List Char) (c : Nat)
    (hbig : c < file.length) (hfs : (firstSeg file).length < c) :
    ∃ j hdr, chunkStep file c 0 [] = (j + 1, hdr, parseCsv (file.take j)) ∧
      file = file.take j ++ '\n' :: file.drop (j + 1) ∧
      ((hdr = [] ∧ file.take j = firstSeg file) ∨
        (hdr = trim (firstSeg file) ∧
          file.take j = firstSeg file ++
            '\n' :: (file.drop ((firstSeg file).length + 1)).take
              (j - (firstSeg file).length - 1))) := by
  have hnlf : '\n' ∈ file := by
    by_contra hno
    rw [firstSeg_of_not_mem file hno] at hfs
    omega
  have hA : file = firstSeg file ++
      '\n' :: file.drop ((firstSeg file).length + 1) :=
    firstSeg_decomp file hnlf
  have hwin : file.take c = firstSeg file ++
      '\n' :: (file.drop ((firstSeg file).length + 1)).take
        (c - (firstSeg file).length - 1) := by
    conv_lhs => rw [hA]
    rw [List.take_append_eq_append_take,
      List.take_of_length_le (by omega : (firstSeg file).length ≤ c)]
    obtain ⟨k, hk⟩ : ∃ k, c - (firstSeg file).length = k + 1 :=
      ⟨c - (firstSeg file).length - 1, by omega⟩
    rw [hk, List.take_succ_cons]
    have hkk : k = c - (firstSeg file).length - 1 := by omega
    subst hkk
    rfl
  obtain ⟨j, hj, hji⟩ : ∃ j, lastNl (file.take c) = some j ∧
      (firstSeg file).length ≤ j := by
    rw [hwin]
    exact lastNl_ge (firstSeg file) _
  have hjlen := lastNl_spec (file.take c) j hj
  have htlen : (file.take c).length = min c file.length :=
    List.length_take c file
  have hjc : j ≤ c := by omega
  have htake : (file.take c).take j = file.take j := by
    rw [List.take_take]
    congr 1
    omega
  have hfile_eq : file = file.take j ++
      '\n' :: ((file.take c).drop (j + 1) ++ file.drop c) := by
    conv_lhs => rw [← List.take_append_drop c file]
    conv_lhs => rw [hjlen.2]
    rw [htake, List.append_assoc, List.cons_append]
  have hdropj : file.drop (j + 1) =
      (file.take c).drop (j + 1) ++ file.drop c := by
    conv_lhs => rw [hfile_eq]
    rw [List.drop_append_eq_append_drop]
    have h1 : (file.take j).length = j := by
      rw [List.length_take]; omega
    rw [List.drop_eq_nil_of_le (by omega), h1]
    have h2 : j + 1 - j = 1 := by omega
    rw [h2]
    simp
  have hdec2 : file = file.take j ++ '\n' :: file.drop (j + 1) := by
    rw [hdropj]
    exact hfile_eq
  -- compute the step; the header depends on whether the cut passed the
  -- header line
  have hstep0 : chunkStep file c 0 [] =
      (j + 1, captureHeader (file.take j) true [],
        parseCsv (file.take j)) := by
    simp only [chunkStep]
    have hmin : min c (file.length - 0) = c := by omega
    rw [hmin, List.drop_zero]
    have hdecb : decide (0 + c < file.length) = true :=
      decide_eq_true (by omega)
    rw [hdecb]
    have hcut : cutChunk (file.take c) true = ((file.take c).take j, j + 1) := by
      simp [cutChunk, hj]
    rw [hcut]
    simp [htake]
  rcases Nat.eq_or_lt_of_le hji with heq | hlt
  · -- the cut is exactly the header's newline
    have htj : file.take j = firstSeg file :=
      take_length_of_append file (firstSeg file) _ j hA heq
    refine ⟨j, [], ?_, hdec2, Or.inl ⟨rfl, htj⟩⟩
    rw [hstep0, htj]
    have : captureHeader (firstSeg file) true [] = [] := by
      simp [captureHeader,
        firstNl_eq_none (firstSeg file) (nl_not_mem_firstSeg file)]
    rw [this]
  · -- the cut is past the header line
    have htj : file.take j = firstSeg file ++
        '\n' :: (file.drop ((firstSeg file).length + 1)).take
          (j - (firstSeg file).length - 1) := by
      conv_lhs => rw [hA]
      rw [List.take_append_eq_append_take,
        List.take_of_length_le (by omega : (firstSeg file).length ≤ j)]
      obtain ⟨k, hk⟩ : ∃ k, j - (firstSeg file).length = k + 1 :=
        ⟨j - (firstSeg file).length - 1, by omega⟩
      rw [hk, List.take_succ_cons]
      have hkk : k = j - (firstSeg file).length - 1 := by omega
      subst hkk
      rfl
    refine ⟨j, trim (firstSeg file), ?_, hdec2, Or.inr ⟨rfl, htj⟩⟩
    rw [hstep0]
    have hcap : captureHeader (file.take j) true [] = trim (firstSeg file) := by
      have hfn : firstNl (file.take j) = some (firstSeg file).length := by
        rw [htj]
        exact firstNl_append_nl _ _ (nl_not_mem_firstSeg file)
      simp only [captureHeader, hfn, if_true]
      congr 1
      exact take_length_of_append _ _ _ _ htj rfl
    rw [hcap]

/-- When the header line ends within the first 4096 bytes, the
header-recovery read reproduces the trimmed header line. -/
theorem headRecover_eq (file : List Char) (hnl : '\n' ∈ file)
    (h4096 : (firstSeg file).length < 4096) :
    headRecover file = trim (firstSeg file) := by
  have hA : file = firstSeg file ++
      '\n' :: file.drop ((firstSeg file).length + 1) :=
    firstSeg_decomp file hnl
  have hwin : file.take 4096 = firstSeg file ++
      '\n' :: (file.drop ((firstSeg file).length + 1)).take
        (4096 - (firstSeg file).length - 1) := by
    conv_lhs => rw [hA]
    rw [List.take_append_eq_append_take,
      List.take_of_length_le (by omega : (firstSeg file).length ≤ 4096)]
    obtain ⟨k, hk⟩ : ∃ k, 4096 - (firstSeg file).length = k + 1 :=
      ⟨4096 - (firstSeg file).length - 1, by omega⟩
    rw [hk, List.take_succ_cons]
    have hkk : k = 4096 - (firstSeg file).length - 1 := by omega
    subst hkk
    rfl
  simp only [headRecover]
  rw [hwin, firstNl_append_nl _ _ (nl_not_mem_firstSeg file)]
  simp only
  congr 1
  exact List.take_left _ _

/-- Claim C5, amended (chunk-boundary invariance as the code actually
guarantees it): for every tabular file and chunk size under which
every line of the file is shorter than the chunk size, the header line
is non-blank, and the header line ends within the 4096-byte
header-recovery read, consuming the file through the chunked reader
(cut each non-final chunk at its last line terminator, carry the
remainder, prepend the running header) yields exactly the same parsed
rows as parsing the whole file as a single chunk.  The original claim
allowed arbitrary chunk decompositions; it fails when a non-final
chunk contains no line terminator, because the code then cannot cut
and advances through the middle of a row. -/
theorem chunked_eq_parse_of_short_lines (file : List Char) (c : Nat)
    (hc : 0 < c)
    (hseg : ∀ seg ∈ splitOnNl file, seg.length < c)
    (hhdr : trim (removeCr (firstSeg file)) ≠ [])
    (hh4096 : (firstSeg file).length < 4096) :
    chunkedRows file c = parseCsv file := by
  have hfne : file ≠ [] := by
    intro h
    subst h
    exact hhdr rfl
  have hfpos : 0 < file.length := List.length_pos.mpr hfne
  have hnlA : '\n' ∉ trim (firstSeg file) :=
    fun h => nl_not_mem_firstSeg file (mem_trim _ _ h)
  have hneA : trim (removeCr (trim (firstSeg file))) ≠ [] := by
    rw [trim_removeCr_trim]
    exact hhdr
  unfold chunkedRows
  obtain ⟨f, hf⟩ : ∃ f, file.length = f + 1 := ⟨file.length - 1, by omega⟩
  rw [hf]
  simp only [chunkedGo]
  rw [if_pos (by omega : 0 < file.length)]
  rcases Nat.lt_or_ge c file.length with hbig | hfit
  · -- several chunks
    have hfs : (firstSeg file).length < c := by
      obtain ⟨tl, htl⟩ := splitOnNl_cons_firstSeg file
      exact hseg _ (htl ▸ List.mem_cons_self _ _)
    have hnlf : '\n' ∈ file := by
      by_contra hno
      rw [firstSeg_of_not_mem file hno] at hfs
      omega
    obtain ⟨j, hdr, hstep, hdec2, hcase⟩ := chunkStep_first_big file c hbig hfs
    rw [hstep]
    simp only
    have hrecov : headRecover file = trim (firstSeg file) :=
      headRecover_eq file hnlf hh4096
    have hmatch : hdr = trim (firstSeg file) ∨
        (hdr = [] ∧ headRecover file = trim (firstSeg file)) := by
      rcases hcase with ⟨h1, _⟩ | ⟨h1, _⟩
      · exact Or.inr ⟨h1, hrecov⟩
      · exact Or.inl h1
    have hzero : 0 + (j + 1) = j + 1 := by omega
    have hseg2 : ∀ seg ∈ splitOnNl (file.drop (j + 1)), seg.length < c := by
      intro seg hmem
      apply hseg
      rw [hdec2, splitOnNl_append_nl]
      exact List.mem_append_right _ hmem
    have hfuel : (file.drop (j + 1)).length ≤ f := by
      rw [List.length_drop]
      omega
    have hGO := chunkedGo_rowsWith c file (trim (firstSeg file)) hnlA hneA
      f (file.drop (j + 1)) (j + 1) hdr hfuel rfl (by omega) hmatch hseg2
    rw [hzero, hGO, trim_removeCr_trim]
    rw [parseCsv_decomp file hnlf hhdr]
    rcases hcase with ⟨hh, htj⟩ | ⟨hh, htj⟩
    · -- the first chunk held only the header line, so j is its length
      have hlenj : min j file.length = (firstSeg file).length := by
        have := congrArg List.length htj
        simpa [List.length_take] using this
      have hji : j = (firstSeg file).length := by
        rcases Nat.lt_or_ge j file.length with h | h
        · omega
        · exfalso
          have h2 : min j file.length = file.length := by omega
          have h3 : (firstSeg file).length < file.length := by omega
          omega
      rw [htj, parseCsv_single _ (nl_not_mem_firstSeg file) hhdr,
        List.nil_append, hji]
    · -- the first chunk held the header line and some data lines
      have hA : file = firstSeg file ++
          '\n' :: file.drop ((firstSeg file).length + 1) :=
        firstSeg_decomp file hnlf
      rw [htj, parseCsv_with_header _ _ (nl_not_mem_firstSeg file) hhdr]
      have hT : file.drop ((firstSeg file).length + 1) =
          (file.drop ((firstSeg file).length + 1)).take
            (j - (firstSeg file).length - 1) ++
          '\n' :: file.drop (j + 1) := by
        have h1 : firstSeg file ++
            '\n' :: file.drop ((firstSeg file).length + 1) =
            (firstSeg file ++
              '\n' :: (file.drop ((firstSeg file).length + 1)).take
                (j - (firstSeg file).length - 1)) ++
            '\n' :: file.drop (j + 1) := by
          rw [← hA, ← htj]
          exact hdec2
        rw [List.append_assoc, List.cons_append] at h1
        have h2 := List.append_cancel_left h1
        injection h2
      conv_rhs => rw [hT]
      rw [rowsWith_append_nl]
  · -- a single chunk
    obtain ⟨hdr0, hstep⟩ := chunkStep_first_small file c hfne hfit
    rw [hstep]
    simp only
    have hend : chunkedGo f file c (0 + file.length) hdr0 = [] :=
      chunkedGo_stop f file c _ hdr0 (by omega)
    rw [hend, List.append_nil]

/-- Claim C5, counterexample: the chunked reader is not invariant
under arbitrary chunk decompositions.  For the file `"h\n12345\n"`
read in 3-byte chunks, the middle chunks contain no line terminator,
so the single data row `12345` is split and parsed as the two rows
`123` and `45`: the row `{h: "123"}` is produced by the chunked reader
but does not belong to the whole-file parse. -/
theorem chunk_invariance_counterexample :
    ([("h".toList, "123".toList)] : Row) ∈
        chunkedRows ("h\n12345\n".toList) 3 ∧
      ([("h".toList, "123".toList)] : Row) ∉
        parseCsv ("h\n12345\n".toList) := by
  decide

/-- Witness for the amended claim C5 at a concrete file and chunk
size: all hypotheses hold for `"a,b\nx,y\nz,w\n"` with 6-byte chunks,
and the chunked parse equals the whole-file parse. -/
theorem chunked_eq_parse_of_short_lines_witness :
    0 < 6 ∧
      (∀ seg ∈ splitOnNl ("a,b\nx,y\nz,w\n".toList), seg.length < 6) ∧
      trim (removeCr (firstSeg ("a,b\nx,y\nz,w\n".toList))) ≠ [] ∧
      (firstSeg ("a,b\nx,y\nz,w\n".toList)).length < 4096 ∧
      chunkedRows ("a,b\nx,y\nz,w\n".toList) 6 =
        parseCsv ("a,b\nx,y\nz,w\n".toList) :=
  ⟨by decide, by decide, by decide, by decide,
    chunked_eq_parse_of_short_lines ("a,b\nx,y\nz,w\n".toList) 6
      (by decide) (by decide) (by decide) (by decide)⟩

/-! ## Feed source and feed version metadata

Model of the "Initialize feed version" step of
`src/Import511Workflow.ts` (lines 266–519) over the
`migrations/0001_initial_schema.sql` schema (`feed_source` with
`UNIQUE(source_name)`, `feed_version` with
`UNIQUE(feed_source_id, version_label)`). -/

structure FeedSourceRow where
  id : Nat
  name : String
  desc : Option String
  lang : Option String
deriving DecidableEq

structure FeedVersionRow where
  id : Nat
  sourceId : Nat
  label : String
  dateAdded : Nat
  startDate : Option Nat
  endDate : Option Nat
  isActive : Bool
deriving DecidableEq

/-- The database as the import workflow sees it: the two metadata
tables concretely, and every other table (the static GTFS entity
tables and the realtime tables whose references the defensive cleanup
nulls) abstracted as a state `σ` that only the cleanup and the
guarded table-loading steps touch.  Fresh surrogate keys come from
`nextId`. -/
structure Db (σ : Type) where
  nextId : Nat
  feedSource : List FeedSourceRow
  feedVersion : List FeedVersionRow
  statics : σ
deriving DecidableEq

/-- The `UNIQUE(feed_source_id, version_label)` conflict key. -/
def versionKey (srcId : Nat) (label : String) (v : FeedVersionRow) : Bool :=
  v.sourceId == srcId && v.label == label

/-- Model of the `feed_source` upsert plus the following
`SELECT feed_source_id` (lines 285–307): insert on new name, update
`source_desc`/`default_lang` on conflict, and return the row id. -/
def ensureFeedSource {σ : Type} (db : Db σ) (name : String)
    (desc lang : Option String) : Db σ × Nat :=
  match db.feedSource.find? (fun r => r.name == name) with
  | some r =>
    ({ db with feedSource := db.feedSource.map (fun s =>
        if s.name == name then { s with desc := desc, lang := lang }
        else s) },
      r.id)
  | none =>
    ({ db with
        nextId := db.nextId + 1,
        feedSource := db.feedSource ++ [⟨db.nextId, name, desc, lang⟩] },
      db.nextId)

/-- Model of the hash-gated version insert (lines 320–331):
`INSERT ... is_active = 1 ... ON CONFLICT(feed_source_id,
version_label) DO NOTHING RETURNING feed_version_id`.  Note the row is
created already active. -/
def tryInsertVersion {σ : Type} (db : Db σ) (srcId : Nat) (label : String)
    (now : Nat) (sd ed : Option Nat) : Db σ × Option Nat :=
  if db.feedVersion.any (versionKey srcId label) then (db, none)
  else
    ({ db with
        nextId := db.nextId + 1,
        feedVersion := db.feedVersion ++
          [⟨db.nextId, srcId, label, now, sd, ed, true⟩] },
      some db.nextId)

/-- Model of the `SELECT feed_version_id ... WHERE feed_source_id = ?
AND version_label = ?` on the duplicate path (lines 342–347). -/
def lookupVersion {σ : Type} (db : Db σ) (srcId : Nat) (label : String) :
    Option Nat :=
  (db.feedVersion.find? (versionKey srcId label)).map (·.id)

/-- Model of `UPDATE feed_version SET is_active = 1 WHERE
feed_version_id = ?` (lines 353–359). -/
def setVersionActive {σ : Type} (db : Db σ) (vid : Nat) : Db σ :=
  { db with feedVersion := db.feedVersion.map (fun v =>
      if v.id == vid then { v with isActive := true } else v) }

/-- Model of `UPDATE feed_version SET is_active = 0 WHERE
feed_source_id = ? AND feed_version_id != ?` (lines 509–515). -/
def deactivateSiblings {σ : Type} (db : Db σ) (srcId vid : Nat) : Db σ :=
  { db with feedVersion := db.feedVersion.map (fun v =>
      if v.sourceId == srcId && v.id != vid then { v with isActive := false }
      else v) }

/-- The "Initialize feed version" step (lines 309–519): try the
hash-gated insert; on success run the defensive cleanup (modelled by
`clear`, the batch of lines 362–507 which touches only non-metadata
tables); on conflict look the existing row up and re-activate it;
in both cases finish by deactivating the siblings. -/
def initFeedVersion {σ : Type} (clear : σ → Nat → σ) (db : Db σ)
    (srcId : Nat) (label : String) (now : Nat) (sd ed : Option Nat) :
    Except String (Db σ × Nat × Bool) :=
  match tryInsertVersion db srcId label now sd ed with
  | (db1, some vid) =>
    let db2 := { db1 with statics := clear db1.statics vid }
    .ok (deactivateSiblings db2 srcId vid, vid, true)
  | (db1, none) =>
    match lookupVersion db1 srcId label with
    | none => .error "Failed to find existing feed_version_id"
    | some vid =>
      .ok (deactivateSiblings (setVersionActive db1 vid) srcId vid, vid,
        false)

/-- The whole import run (`Import511Workflow.run`): hash the archive,
derive the version label `511-<operator>-<hash>` (line 310), ensure
the feed source, initialize the feed version, and — only when the
version is new — run all the table-loading steps (every one of lines
521–2015 is guarded by `isNewVersion`), modelled by `load` acting on
the non-metadata state. -/
def runImport {σ α : Type} (clear : σ → Nat → σ) (load : σ → σ)
    (hashFn : α → String) (db : Db σ) (operatorId : String) (archive : α)
    (desc lang : Option String) (now : Nat) (sd ed : Option Nat) :
    Except String (Db σ × Nat × Bool) :=
  let hashHex := hashFn archive
  let label := "511-" ++ operatorId ++ "-" ++ hashHex
  match ensureFeedSource db operatorId desc lang with
  | (db1, srcId) =>
    match initFeedVersion clear db1 srcId label now sd ed with
    | .error e => .error e
    | .ok (db2, vid, isNew) =>
      if isNew then .ok ({ db2 with statics := load db2.statics }, vid, true)
      else .ok (db2, vid, false)

/-! ## Stability lemmas for the metadata operations -/

theorem find?_map_eq {α β : Type} (l : List α) (f : α → α) (p : α → Bool)
    (g : α → β) (hp : ∀ v, p (f v) = p v) (hg : ∀ v, g (f v) = g v) :
    ((l.map f).find? p).map g = (l.find? p).map g := by
  induction l with
  | nil => rfl
  | cons a l ih =>
    by_cases h : p a = true
    · rw [List.map_cons, List.find?_cons_of_pos _ (by rw [hp]; exact h),
        List.find?_cons_of_pos _ h]
      simp [hg]
    · rw [List.map_cons, List.find?_cons_of_neg _ (by rw [hp]; exact h),
        List.find?_cons_of_neg _ h]
      exact ih

theorem any_of_find?_some {α : Type} {l : List α} {p : α → Bool} {a : α}
    (h : l.find? p = some a) : l.any p = true :=
  List.any_eq_true.mpr ⟨a, List.mem_of_find?_eq_some h, List.find?_some h⟩

theorem setVersionActive_key (vid : Nat) (srcId : Nat) (label : String)
    (v : FeedVersionRow) :
    versionKey srcId label
        (if v.id == vid then { v with isActive := true } else v) =
      versionKey srcId label v := by
  by_cases h : v.id == vid <;> simp [h, versionKey]

theorem setVersionActive_id (vid : Nat) (v : FeedVersionRow) :
    (if v.id == vid then { v with isActive := true } else v).id = v.id := by
  by_cases h : v.id == vid <;> simp [h]

theorem deactivateSiblings_key (srcId vid : Nat) (srcId' : Nat)
    (label : String) (v : FeedVersionRow) :
    versionKey srcId' label
        (if v.sourceId == srcId && v.id != vid then
          { v with isActive := false } else v) =
      versionKey srcId' label v := by
  by_cases h : v.sourceId == srcId && v.id != vid <;> simp [h, versionKey]

theorem deactivateSiblings_id (srcId vid : Nat) (v : FeedVersionRow) :
    (if v.sourceId == srcId && v.id != vid then
      { v with isActive := false } else v).id = v.id := by
  by_cases h : v.sourceId == srcId && v.id != vid <;> simp [h]

theorem ensureFeedSource_find_id {σ : Type} (db : Db σ) (n : String)
    (d l : Option String) :
    ((ensureFeedSource db n d l).1.feedSource.find?
        (fun r => r.name == n)).map (·.id) =
      some (ensureFeedSource db n d l).2 := by
  unfold ensureFeedSource
  cases h : db.feedSource.find? (fun r => r.name == n) with
  | some r =>
    simp only
    rw [find?_map_eq _ _ _ _
      (fun s => by by_cases hs : s.name == n <;> simp [hs])
      (fun s => by by_cases hs : s.name == n <;> simp [hs])]
    rw [h]
    rfl
  | none =>
    simp only
    rw [List.find?_append, h]
    simp

theorem ensureFeedSource_found {σ : Type} (db : Db σ) (n : String)
    (d l : Option String) (sid : Nat)
    (h : (db.feedSource.find? (fun r => r.name == n)).map (·.id) =
      some sid) :
    (ensureFeedSource db n d l).2 = sid ∧
      (ensureFeedSource db n d l).1.feedVersion = db.feedVersion ∧
      (ensureFeedSource db n d l).1.statics = db.statics := by
  obtain ⟨r, hr, hrid⟩ := Option.map_eq_some'.mp h
  unfold ensureFeedSource
  rw [hr]
  exact ⟨hrid, rfl, rfl⟩

theorem ensureFeedSource_feedVersion {σ : Type} (db : Db σ) (n : String)
    (d l : Option String) :
    (ensureFeedSource db n d l).1.feedVersion = db.feedVersion := by
  unfold ensureFeedSource
  cases h : db.feedSource.find? (fun r => r.name == n) <;> rfl

/-- What the "Initialize feed version" step guarantees about its
output: the feed-source table is untouched and the returned id is the
id of the (first) row carrying the conflict key. -/
theorem initFeedVersion_spec {σ : Type} (clear : σ → Nat → σ) (db : Db σ)
    (srcId : Nat) (label : String) (now : Nat) (sd ed : Option Nat)
    (db' : Db σ) (vid : Nat) (isNew : Bool)
    (h : initFeedVersion clear db srcId label now sd ed =
      .ok (db', vid, isNew)) :
    db'.feedSource = db.feedSource ∧
      (db'.feedVersion.find? (versionKey srcId label)).map (·.id) =
        some vid := by
  unfold initFeedVersion tryInsertVersion at h
  by_cases hany : db.feedVersion.any (versionKey srcId label)
  · rw [if_pos hany] at h
    simp only [lookupVersion] at h
    cases hfind : db.feedVersion.find? (versionKey srcId label) with
    | none =>
      exfalso
      obtain ⟨x, hmem, hx⟩ := List.any_eq_true.mp hany
      exact (List.find?_eq_none.mp hfind x hmem) hx
    | some r =>
      rw [hfind] at h
      simp only [Option.map] at h
      injection h with h
      obtain ⟨hdb, hv, _⟩ : db' = _ ∧ vid = r.id ∧ isNew = false := by
        injection h with h1 h2
        injection h2 with h2 h3
        exact ⟨h1.symm, h2.symm, h3.symm⟩
      subst hdb hv
      refine ⟨rfl, ?_⟩
      simp only [deactivateSiblings, setVersionActive]
      rw [find?_map_eq _ _ _ _ (deactivateSiblings_key srcId r.id srcId label)
          (deactivateSiblings_id srcId r.id),
        find?_map_eq _ _ _ _ (setVersionActive_key r.id srcId label)
          (setVersionActive_id r.id),
        hfind]
      rfl
  · rw [if_neg hany] at h
    injection h with h
    injection h with h1 h2
    injection h2 with h2 h3
    subst h1 h2
    refine ⟨rfl, ?_⟩
    simp only [deactivateSiblings]
    rw [find?_map_eq _ _ _ _
        (deactivateSiblings_key srcId db.nextId srcId label)
        (deactivateSiblings_id srcId db.nextId),
      List.find?_append,
      List.find?_eq_none.mpr (fun x hx hpx =>
        hany (List.any_eq_true.mpr ⟨x, hx, hpx⟩))]
    simp [versionKey]

/-- On a database already holding the conflict key, the step resolves
to the existing row: no new `feed_version` row, no touch of the
abstract (static) state. -/
theorem initFeedVersion_dup {σ : Type} (clear : σ → Nat → σ) (db : Db σ)
    (srcId : Nat) (label : String) (now : Nat) (sd ed : Option Nat)
    (v : Nat)
    (hfound : (db.feedVersion.find? (versionKey srcId label)).map (·.id) =
      some v) :
    initFeedVersion clear db srcId label now sd ed =
        .ok (deactivateSiblings (setVersionActive db v) srcId v, v, false) ∧
      (deactivateSiblings (setVersionActive db v) srcId v).statics =
        db.statics ∧
      (deactivateSiblings (setVersionActive db v) srcId
          v).feedVersion.length = db.feedVersion.length := by
  obtain ⟨r, hr, hrid⟩ := Option.map_eq_some'.mp hfound
  have hany : db.feedVersion.any (versionKey srcId label) = true :=
    any_of_find?_some hr
  refine ⟨?_, rfl, by simp [deactivateSiblings, setVersionActive]⟩
  unfold initFeedVersion tryInsertVersion
  rw [if_pos hany]
  simp only [lookupVersion]
  rw [hr]
  simp [hrid]

/-- Claim C1 (idempotent re-import): for every source and every
archive whose bytes are identical to a previously imported archive for
that source, a second import run resolves the content-hash-derived
version label `511-<operator>-<hash>` to the already existing
`feed_version` row (the id returned is the first run's id and no
second row is created), returns `isNewVersion = false`, and performs
no writes to any static entity table — all table-loading steps and the
defensive cleanup are guarded by `isNewVersion`, so the abstract
static state is returned untouched. -/
theorem import_idempotent {σ α : Type}
    (clear : σ → Nat → σ) (load1 load2 : σ → σ) (hashFn : α → String)
    (db0 : Db σ) (op : String) (archive : α)
    (d1 d2 l1 l2 : Option String) (now1 now2 : Nat)
    (sd1 sd2 ed1 ed2 : Option Nat)
    (db1 : Db σ) (v1 : Nat) (b1 : Bool)
    (h1 : runImport clear load1 hashFn db0 op archive d1 l1 now1 sd1 ed1 =
      .ok (db1, v1, b1)) :
    match runImport clear load2 hashFn db1 op archive d2 l2 now2 sd2 ed2 with
    | .ok (db2, v2, isNew2) =>
        v2 = v1 ∧ isNew2 = false ∧ db2.statics = db1.statics ∧
          db2.feedVersion.length = db1.feedVersion.length
    | .error _ => False := by
  unfold runImport at h1
  rcases hE : ensureFeedSource db0 op d1 l1 with ⟨dbA, srcId⟩
  rw [hE] at h1
  simp only at h1
  rcases hI : initFeedVersion clear dbA srcId
      ("511-" ++ op ++ "-" ++ hashFn archive) now1 sd1 ed1 with e | ⟨dbB, vB, nB⟩
  · rw [hI] at h1
    cases h1
  · rw [hI] at h1
    obtain ⟨hsrc, hkeyB⟩ := initFeedVersion_spec clear dbA srcId _ now1 sd1
      ed1 dbB vB nB hI
    -- whatever the branch, db1 differs from dbB only in `statics`,
    -- carries v1 = vB, and keeps dbA's feed-source table
    have hdb1 : db1.feedVersion = dbB.feedVersion ∧
        db1.feedSource = dbB.feedSource ∧ v1 = vB := by
      by_cases hn : nB = true
      · subst hn
        replace h1 : Except.ok ({ dbB with statics := load1 dbB.statics },
            vB, true) = Except.ok (db1, v1, b1) := h1
        injection h1 with h1
        injection h1 with ha hb
        injection hb with hb hc
        subst ha hb
        exact ⟨rfl, rfl, rfl⟩
      · rw [Bool.not_eq_true] at hn
        subst hn
        replace h1 : Except.ok (dbB, vB, false) =
            Except.ok (db1, v1, b1) := h1
        injection h1 with h1
        injection h1 with ha hb
        injection hb with hb hc
        subst ha hb
        exact ⟨rfl, rfl, rfl⟩
    obtain ⟨hfv1, hfs1, hv1⟩ := hdb1
    -- the second run finds the same source and the same version row
    have hname1 : (db1.feedSource.find? (fun r => r.name == op)).map
        (·.id) = some srcId := by
      rw [hfs1, hsrc]
      have := ensureFeedSource_find_id db0 op d1 l1
      rw [hE] at this
      exact this
    have hkey1 : (db1.feedVersion.find?
        (versionKey srcId ("511-" ++ op ++ "-" ++ hashFn archive))).map
          (·.id) = some v1 := by
      rw [hfv1, hv1]
      exact hkeyB
    obtain ⟨hsid2, hfv2, hst2⟩ :=
      ensureFeedSource_found db1 op d2 l2 srcId hname1
    unfold runImport
    rcases hE2 : ensureFeedSource db1 op d2 l2 with ⟨dbC, srcId2⟩
    rw [hE2] at hsid2 hfv2 hst2
    dsimp only at hsid2 hfv2 hst2 ⊢
    subst hsid2
    obtain ⟨hinit2, hst3, hlen3⟩ := initFeedVersion_dup clear dbC srcId2
      ("511-" ++ op ++ "-" ++ hashFn archive) now2 sd2 ed2 v1
      (by rw [hfv2]; exact hkey1)
    rw [hinit2]
    exact ⟨rfl, rfl, by rw [hst3]; exact hst2, by rw [hlen3, hfv2]⟩

/-- Concrete example state for exercising the import model: empty
database, numeric "archive bytes" hashed by `toString`, loads and
cleanup modelled as counters on the abstract static state. -/
def c1Db0 : Db Nat := ⟨1, [], [], 0⟩

def c1ClearEx : Nat → Nat → Nat := fun s _ => s + 1000

def c1LoadEx : Nat → Nat := fun s => s + 1

def c1HashEx : Nat → String := fun n => toString n

def c1Db1 : Db Nat :=
  ⟨3, [⟨1, "SF", none, none⟩], [⟨2, 1, "511-SF-7", 10, none, none, true⟩],
    1001⟩

/-- Witness for claim C1: a concrete first import creates version 2
for source `SF`, and re-importing the identical archive resolves to
version 2 with `isNewVersion = false`, leaves the static state
untouched and adds no `feed_version` row. -/
theorem import_idempotent_witness :
    runImport c1ClearEx c1LoadEx c1HashEx c1Db0 "SF" 7 none none 10 none
        none = Except.ok (c1Db1, 2, true) ∧
      match runImport c1ClearEx c1LoadEx c1HashEx c1Db1 "SF" 7 none none 20
          none none with
      | .ok (db2, v2, isNew2) =>
          v2 = 2 ∧ isNew2 = false ∧ db2.statics = c1Db1.statics ∧
            db2.feedVersion.length = c1Db1.feedVersion.length
      | .error _ => False :=
  ⟨rfl,
    import_idempotent c1ClearEx c1LoadEx c1LoadEx c1HashEx c1Db0 "SF" 7
      none none none none 10 20 none none none none c1Db1 2 true rfl⟩

/-- The versions of a source currently flagged active. -/
def activeVersions {σ : Type} (db : Db σ) (srcId : Nat) :
    List FeedVersionRow :=
  db.feedVersion.filter (fun v => v.sourceId == srcId && v.isActive)

def c2Db : Db Unit :=
  ⟨3, [⟨1, "SF", none, none⟩], [⟨2, 1, "511-SF-aaa", 0, none, none, true⟩],
    ()⟩

/-- Claim C2, counterexample: activation is not atomic.  The version
insert (lines 320–331) creates the new row with `is_active = 1`
*before* the sibling-deactivation statement (lines 509–515) runs, so
the state between the two writes — here: after `tryInsertVersion` on a
source that already has an active version — holds two active versions
of the same source. -/
theorem two_active_intermediate_counterexample :
    (activeVersions c2Db 1).length = 1 ∧
      (activeVersions
        (tryInsertVersion c2Db 1 "511-SF-bbb" 5 none none).1 1).length =
        2 := by
  decide

/-- Claim C2, amended: once the "Initialize feed version" step has
completed, the returned version is the only active version of the
source (every row of the source is active exactly when it is the
returned row); but activation and sibling-deactivation are separate
statements, so an intermediate state with two active versions of one
source is observable between them. -/
theorem init_single_active {σ : Type} (clear : σ → Nat → σ) (db : Db σ)
    (srcId : Nat) (label : String) (now : Nat) (sd ed : Option Nat)
    (db' : Db σ) (vid : Nat) (isNew : Bool)
    (hfresh : ∀ v ∈ db.feedVersion, v.id < db.nextId)
    (h : initFeedVersion clear db srcId label now sd ed =
      .ok (db', vid, isNew)) :
    ∀ v ∈ db'.feedVersion, v.sourceId = srcId →
      (v.isActive = true ↔ v.id = vid) := by
  unfold initFeedVersion tryInsertVersion at h
  by_cases hany : db.feedVersion.any (versionKey srcId label)
  · rw [if_pos hany] at h
    simp only [lookupVersion] at h
    cases hfind : db.feedVersion.find? (versionKey srcId label) with
    | none =>
      exfalso
      obtain ⟨x, hmem, hx⟩ := List.any_eq_true.mp hany
      exact (List.find?_eq_none.mp hfind x hmem) hx
    | some r =>
      rw [hfind] at h
      simp only [Option.map] at h
      injection h with h
      injection h with ha hb
      injection hb with hb hc
      subst ha hb
      intro v hv hvsrc
      simp only [deactivateSiblings, setVersionActive, List.map_map,
        List.mem_map, Function.comp] at hv
      obtain ⟨w, hw, hveq⟩ := hv
      by_cases hid : (w.id == r.id) = true
      · have hid' : w.id = r.id := by simpa using hid
        rw [if_pos hid] at hveq
        have : (({ w with isActive := true } : FeedVersionRow).sourceId ==
            srcId && ({ w with isActive := true } : FeedVersionRow).id !=
              r.id) = false := by
          simp [hid']
        rw [this] at hveq
        simp at hveq
        subst hveq
        simp [hid']
      · rw [if_neg hid] at hveq
        have hwid : w.id ≠ r.id := fun he => hid (by simp [he])
        by_cases hws : (w.sourceId == srcId) = true
        · have : (w.sourceId == srcId && w.id != r.id) = true := by
            simp [hws, hwid]
          rw [this] at hveq
          subst hveq
          simp [hwid]
        · have : (w.sourceId == srcId && w.id != r.id) = false := by
            simp only [Bool.and_eq_true] at *
            simp [hws]
          rw [this] at hveq
          simp at hveq
          subst hveq
          exact absurd (by simp [hvsrc]) hws
  · rw [if_neg hany] at h
    injection h with h
    injection h with ha hb
    injection hb with hb hc
    subst ha hb
    intro v hv hvsrc
    simp only [deactivateSiblings, List.map_append, List.mem_append,
      List.mem_map, List.map_cons, List.map_nil, List.mem_singleton] at hv
    rcases hv with ⟨w, hw, hveq⟩ | hveq
    · have hwid : w.id ≠ db.nextId := Nat.ne_of_lt (hfresh w hw)
      by_cases hws : (w.sourceId == srcId) = true
      · have : (w.sourceId == srcId && w.id != db.nextId) = true := by
          simp [hws, hwid]
        rw [this] at hveq
        subst hveq
        simp [hwid]
      · have : (w.sourceId == srcId && w.id != db.nextId) = false := by
          simp only [Bool.and_eq_true] at *
          simp [hws]
        rw [this] at hveq
        simp at hveq
        subst hveq
        exact absurd (by simp [hvsrc]) hws
    · have : ((⟨db.nextId, srcId, label, now, sd, ed, true⟩ :
          FeedVersionRow).sourceId == srcId &&
          (⟨db.nextId, srcId, label, now, sd, ed, true⟩ :
            FeedVersionRow).id != db.nextId) = false := by
        simp
      rw [this] at hveq
      subst hveq
      simp

/-- The concrete state produced by initializing `511-SF-bbb` over
`c2Db`: version 2 deactivated, version 3 created active. -/
def c2Db' : Db Unit :=
  ⟨4, [⟨1, "SF", none, none⟩],
    [⟨2, 1, "511-SF-aaa", 0, none, none, false⟩,
      ⟨3, 1, "511-SF-bbb", 5, none, none, true⟩], ()⟩

/-- Witness for the amended claim C2 at a concrete database: the
source already has active version 2; after initializing a new version
the step reports version 3 and exactly version 3 is active. -/
theorem init_single_active_witness :
    (∀ v ∈ c2Db.feedVersion, v.id < c2Db.nextId) ∧
      initFeedVersion (fun s _ => s) c2Db 1 "511-SF-bbb" 5 none none =
        .ok (c2Db', 3, true) ∧
      (∀ v ∈ c2Db'.feedVersion, v.sourceId = 1 →
        (v.isActive = true ↔ v.id = 3)) :=
  ⟨by decide, rfl,
    init_single_active (fun s _ => s) c2Db 1 "511-SF-bbb" 5 none none
      c2Db' 3 true (by decide) rfl⟩

/-! ## Row field access and scalar conversions

Models of `row.<field>` access on a parsed `CsvRow` (JavaScript object
semantics: a missing header is `undefined`, modelled as `none`; on a
duplicate header the later assignment wins) and of the converters
`nullIfEmpty` / `intOrNull` of `Import511Workflow.ts` lines 136–151. -/

def rowGet (row : Row) (k : List Char) : Option (List Char) :=
  (row.reverse.find? (fun p => p.1 == k)).map (·.2)

/-- Model of `nullIfEmpty`: `undefined` and the empty string become
SQL null. -/
def nullIfEmpty (v : Option (List Char)) : Option (List Char) :=
  match v with
  | none => none
  | some s => if s = [] then none else some s

/-- JavaScript string truthiness (`if (row.parent_station)`):
`undefined` and the empty string are falsy. -/
def truthyStr : Option (List Char) → Bool
  | none => false
  | some s => !s.isEmpty

/-- Decimal digits of a numeral. -/
def digitsVal : List Char → Option Nat
  | [] => none
  | [c] => if '0' ≤ c ∧ c ≤ '9' then some (c.toNat - '0'.toNat) else none
  | c :: rest =>
    match (if '0' ≤ c ∧ c ≤ '9' then some (c.toNat - '0'.toNat) else none),
        digitsVal rest with
    | some d, some r => some (d * 10 ^ rest.length + r)
    | _, _ => none

/-- Model of `Number(value)` restricted to optionally signed decimal
integer numerals (the only shapes these GTFS fields carry); any other
input stands for NaN. -/
def jsNumber (s : List Char) : Option Int :=
  match s with
  | '-' :: rest => (digitsVal rest).map (fun n => -(n : Int))
  | _ => (digitsVal s).map (fun n => (n : Int))

/-- Model of `intOrNull` / `floatOrNull` on integer numerals:
`undefined` and the empty string give null, an unparsable value gives
null, otherwise the number. -/
def intOrNull (v : Option (List Char)) : Option Int :=
  match v with
  | none => none
  | some [] => none
  | some s => jsNumber s

/-! ## Trips table load (model of the per-row body of the trips chunk
loop, `Import511Workflow.ts` lines 1046–1117) -/

/-- The values bound by the `INSERT INTO trips` statement
(lines 1049–1066). -/
structure TripsInsertRow where
  feedVersionId : Nat
  tripId : Option (List Char)
  routePk : Option Nat
  serviceId : Option (List Char)
  tripHeadsign : Option (List Char)
  tripShortName : Option (List Char)
  directionId : Option Int
  blockId : Option (List Char)
  shapeId : Option (List Char)
  wheelchairAccessible : Option Int
  bikesAllowed : Option Int
  carsAllowed : Option Int
deriving DecidableEq

/-- `routeMap[row.route_id]`: `undefined` when the row has no
`route_id` column or the id is not in the remapping table. -/
def tripRouteLookup (routeMap : List Char → Option Nat) (row : Row) :
    Option Nat :=
  match rowGet row ("route_id".toList) with
  | none => none
  | some rid => routeMap rid

/-- JavaScript truthiness on a surrogate key (`if (!routePk)
continue`): `undefined` and `0` are falsy. -/
def truthyPk : Option Nat → Option Nat
  | none => none
  | some 0 => none
  | some pk => some pk

/-- One row of the trips loop: resolve the route, *drop the row* when
the route does not resolve (`if (!routePk) continue;`, lines
1094–1095), otherwise bind the insert values. -/
def tripsInsertOf (feedVersionId : Nat)
    (routeMap : List Char → Option Nat) (row : Row) :
    Option TripsInsertRow :=
  match truthyPk (tripRouteLookup routeMap row) with
  | none => none
  | some pk =>
    some
      { feedVersionId := feedVersionId
        tripId := nullIfEmpty (rowGet row ("trip_id".toList))
        routePk := some pk
        serviceId := nullIfEmpty (rowGet row ("service_id".toList))
        tripHeadsign := nullIfEmpty (rowGet row ("trip_headsign".toList))
        tripShortName := nullIfEmpty (rowGet row ("trip_short_name".toList))
        directionId := intOrNull (rowGet row ("direction_id".toList))
        blockId := nullIfEmpty (rowGet row ("block_id".toList))
        shapeId := nullIfEmpty (rowGet row ("shape_id".toList))
        wheelchairAccessible :=
          intOrNull (rowGet row ("wheelchair_accessible".toList))
        bikesAllowed := intOrNull (rowGet row ("bikes_allowed".toList))
        carsAllowed := intOrNull (rowGet row ("cars_allowed".toList)) }

/-- The statements built by one trips chunk (the loop of lines
1093–1117): one insert per row whose route resolves. -/
def importTripsRows (feedVersionId : Nat)
    (routeMap : List Char → Option Nat) (rows : List Row) :
    List TripsInsertRow :=
  rows.filterMap (tripsInsertOf feedVersionId routeMap)

/-- Claim C3: a trips row whose `route_id` does not resolve in the
route remapping table is dropped entirely — it yields no insert, the
load of the remaining rows is exactly as if the row were absent
(no failure), and no inserted trips row ever carries a null route
reference. -/
theorem trips_drop_unresolved (fv : Nat)
    (routeMap : List Char → Option Nat) (row : Row)
    (hunres : tripRouteLookup routeMap row = none) :
    tripsInsertOf fv routeMap row = none ∧
      (∀ xs ys : List Row, importTripsRows fv routeMap (xs ++ row :: ys) =
        importTripsRows fv routeMap (xs ++ ys)) ∧
      (∀ rows : List Row, ∀ t ∈ importTripsRows fv routeMap rows,
        t.routePk ≠ none) := by
  have hdrop : tripsInsertOf fv routeMap row = none := by
    unfold tripsInsertOf
    rw [hunres]
    rfl
  refine ⟨hdrop, ?_, ?_⟩
  · intro xs ys
    unfold importTripsRows
    rw [List.filterMap_append, List.filterMap_append, List.filterMap_cons,
      hdrop]
  · intro rows t ht
    obtain ⟨r, _, hr⟩ := List.mem_filterMap.mp ht
    unfold tripsInsertOf at hr
    cases hp : truthyPk (tripRouteLookup routeMap r) with
    | none => rw [hp] at hr; cases hr
    | some pk =>
      rw [hp] at hr
      injection hr with hr
      rw [← hr]
      simp

/-! ## Stops table load (model of the stops chunk loop and the parent
update pass, `Import511Workflow.ts` lines 716–910) -/

/-- A stored `stops` row: the surrogate key, the bound `stop_id` and
`stop_name` values, and the `parent_station` column.  The further
bound columns (`stop_code`, coordinates, …) do not interact with
parent resolution and are not tracked. -/
structure StopsDbRow where
  pk : Nat
  stopId : Option (List Char)
  stopName : Option (List Char)
  parentStation : Option Nat
deriving DecidableEq

/-- The `stop_id` value bound by the insert: `nullIfEmpty(row.stop_id)`. -/
def stopKey (row : Row) : Option (List Char) :=
  nullIfEmpty (rowGet row ("stop_id".toList))

/-- The `stop_name` value bound by the insert. -/
def stopNameOf (row : Row) : Option (List Char) :=
  nullIfEmpty (rowGet row ("stop_name".toList))

/-- `row.stop_id` as accessed for the id→key map (`localMap[row.stop_id]`,
the raw field, not the null-normalised bind value). -/
def rawStopId (row : Row) : Option (List Char) :=
  rowGet row ("stop_id".toList)

/-- `row.parent_station` as accessed by the loop. -/
def rawParent (row : Row) : Option (List Char) :=
  rowGet row ("parent_station".toList)

/-- The `INSERT … ON CONFLICT(feed_version_id, stop_id) DO UPDATE …
RETURNING stop_pk` statement (lines 779–801): a null `stop_id` never
conflicts (SQL nulls are distinct in a unique index); on conflict the
row is updated in place — `parent_station` is *not* among the updated
columns — and the existing key is returned; otherwise a fresh key is
allocated.  Returns (table, next key, returned key). -/
def upsertStop (tbl : List StopsDbRow) (nextPk : Nat)
    (sid sname : Option (List Char)) :
    List StopsDbRow × Nat × Nat :=
  match sid with
  | some s =>
    match tbl.find? (fun r => r.stopId == some s) with
    | some r =>
      (tbl.map (fun t => if t.pk == r.pk then { t with stopName := sname }
        else t), nextPk, r.pk)
    | none => (tbl ++ [⟨nextPk, some s, sname, none⟩], nextPk + 1, nextPk)
  | none => (tbl ++ [⟨nextPk, none, sname, none⟩], nextPk + 1, nextPk)

/-- The state threaded through the first pass: the stops table, the
key allocator, the accumulated `stopMap` (most recent write first) and
the accumulated `(childPk, parentId)` assignments. -/
structure StopsLoadState where
  tbl : List StopsDbRow
  nextPk : Nat
  stopMap : List (Option (List Char) × Nat)
  parentAssignments : List (Nat × List Char)
deriving DecidableEq

/-- One row of the first pass (lines 814–868): upsert the stop with a
null `parent_station` bind, and if the returned key is truthy record
`localMap[row.stop_id] = pk` and, when `row.parent_station` is truthy,
push `{childPk: pk, parentId: row.parent_station}`. -/
def stopsPass1Step (st : StopsLoadState) (row : Row) : StopsLoadState :=
  let res := upsertStop st.tbl st.nextPk (stopKey row) (stopNameOf row)
  if res.2.2 ≠ 0 then
    { tbl := res.1
      nextPk := res.2.1
      stopMap := (rawStopId row, res.2.2) :: st.stopMap
      parentAssignments := st.parentAssignments ++
        (if truthyStr (rawParent row) then
          [(res.2.2, (rawParent row).getD [])] else []) }
  else
    { st with tbl := res.1, nextPk := res.2.1 }

/-- The whole first pass over the file's rows (surrogate keys are
allocated from 1, as by SQLite's rowid allocator). -/
def stopsPass1 (rows : List Row) : StopsLoadState :=
  rows.foldl stopsPass1Step ⟨[], 1, [], []⟩

/-- `stopMap[key]` with last-write-wins object semantics (entries are
prepended, so the first hit is the most recent write). -/
def mapLookup (m : List (Option (List Char) × Nat))
    (k : Option (List Char)) : Option Nat :=
  (m.find? (fun p => p.1 == k)).map (·.2)

/-- `UPDATE stops SET parent_station = ? WHERE stop_pk = ?`. -/
def applyParent (tbl : List StopsDbRow) (childPk ppk : Nat) :
    List StopsDbRow :=
  tbl.map (fun r => if r.pk == childPk then
    { r with parentStation := some ppk } else r)

/-- One parent assignment of the second pass (lines 888–910):
`const parentPk = stopMap[item.parentId]; if (parentPk) { UPDATE … }`. -/
def stopsPass2Step (m : List (Option (List Char) × Nat))
    (t : List StopsDbRow) (q : Nat × List Char) : List StopsDbRow :=
  match truthyPk (mapLookup m (some q.2)) with
  | none => t
  | some ppk => applyParent t q.1 ppk

/-- The second pass: apply every accumulated parent assignment against
the completed id→key map. -/
def stopsPass2 (m : List (Option (List Char) × Nat))
    (pas : List (Nat × List Char)) (tbl : List StopsDbRow) :
    List StopsDbRow :=
  pas.foldl (stopsPass2Step m) tbl

/-- The full stops import: first pass, then the parent update pass
against the completed map. -/
def importStops (rows : List Row) : List StopsDbRow :=
  stopsPass2 (stopsPass1 rows).stopMap (stopsPass1 rows).parentAssignments
    (stopsPass1 rows).tbl

/-! Closed forms of the first pass when the file's stop keys are
pairwise distinct (no upsert ever conflicts). -/

def tblOf (n : Nat) : List Row → List StopsDbRow
  | [] => []
  | r :: rs => ⟨n, stopKey r, stopNameOf r, none⟩ :: tblOf (n + 1) rs

def mapEntriesOf (n : Nat) : List Row → List (Option (List Char) × Nat)
  | [] => []
  | r :: rs => (rawStopId r, n) :: mapEntriesOf (n + 1) rs

def paEntriesOf (n : Nat) : List Row → List (Nat × List Char)
  | [] => []
  | r :: rs =>
    (if truthyStr (rawParent r) then [(n, (rawParent r).getD [])] else []) ++
      paEntriesOf (n + 1) rs

theorem tblOf_append (xs : List Row) : ∀ (n : Nat) (ys : List Row),
    tblOf n (xs ++ ys) = tblOf n xs ++ tblOf (n + xs.length) ys := by
  induction xs with
  | nil => intro n ys; simp [tblOf]
  | cons r rs ih =>
    intro n ys
    have hlen : n + 1 + rs.length = n + (rs.length + 1) := by omega
    simp only [List.cons_append, tblOf, List.append_eq, List.length_cons,
      ih, hlen]

theorem mapEntriesOf_append (xs : List Row) : ∀ (n : Nat) (ys : List Row),
    mapEntriesOf n (xs ++ ys) =
      mapEntriesOf n xs ++ mapEntriesOf (n + xs.length) ys := by
  induction xs with
  | nil => intro n ys; simp [mapEntriesOf]
  | cons r rs ih =>
    intro n ys
    have hlen : n + 1 + rs.length = n + (rs.length + 1) := by omega
    simp only [List.cons_append, mapEntriesOf, List.append_eq,
      List.length_cons, ih, hlen]

theorem paEntriesOf_append (xs : List Row) : ∀ (n : Nat) (ys : List Row),
    paEntriesOf n (xs ++ ys) =
      paEntriesOf n xs ++ paEntriesOf (n + xs.length) ys := by
  induction xs with
  | nil => intro n ys; simp [paEntriesOf]
  | cons r rs ih =>
    intro n ys
    have hlen : n + 1 + rs.length = n + (rs.length + 1) := by omega
    simp only [List.cons_append, paEntriesOf, List.append_eq,
      List.length_cons, ih, hlen, List.append_assoc]

theorem tblOf_mem (rows : List Row) : ∀ (n : Nat), ∀ r ∈ tblOf n rows,
    (n ≤ r.pk ∧ r.pk < n + rows.length ∧ r.parentStation = none) ∧
      ∃ row ∈ rows, r.stopId = stopKey row := by
  induction rows with
  | nil => intro n r hr; simp [tblOf] at hr
  | cons row rest ih =>
    intro n r hr
    rw [tblOf, List.mem_cons] at hr
    rcases hr with hr | hr
    · subst hr
      refine ⟨⟨le_refl n, by simp, rfl⟩, row, List.mem_cons_self _ _, rfl⟩
    · obtain ⟨⟨h1, h2, h3⟩, row', hrow', hid⟩ := ih (n + 1) r hr
      exact ⟨⟨by omega, by simp at h2 ⊢; omega, h3⟩,
        row', List.mem_cons_of_mem _ hrow', hid⟩

theorem mapEntriesOf_mem (rows : List Row) :
    ∀ (n : Nat), ∀ p ∈ mapEntriesOf n rows,
    ∃ row ∈ rows, p.1 = rawStopId row := by
  induction rows with
  | nil => intro n p hp; simp [mapEntriesOf] at hp
  | cons row rest ih =>
    intro n p hp
    rw [mapEntriesOf, List.mem_cons] at hp
    rcases hp with hp | hp
    · exact ⟨row, List.mem_cons_self _ _, by rw [hp]⟩
    · obtain ⟨row', hrow', h⟩ := ih (n + 1) p hp
      exact ⟨row', List.mem_cons_of_mem _ hrow', h⟩

theorem paEntriesOf_mem (rows : List Row) :
    ∀ (n : Nat), ∀ q ∈ paEntriesOf n rows,
    n ≤ q.1 ∧ q.1 < n + rows.length := by
  induction rows with
  | nil => intro n q hq; simp [paEntriesOf] at hq
  | cons row rest ih =>
    intro n q hq
    rw [paEntriesOf, List.mem_append] at hq
    rcases hq with hq | hq
    · by_cases ht : truthyStr (rawParent row)
      · rw [if_pos ht, List.mem_singleton] at hq
        subst hq
        simp
      · rw [if_neg ht] at hq
        simp at hq
    · obtain ⟨h1, h2⟩ := ih (n + 1) q hq
      constructor
      · omega
      · simp at h2 ⊢
        omega

/-- Closed form of the first pass fold: when the processed rows'
stop keys are pairwise distinct and absent from the incoming table,
every upsert inserts and the pass appends one table row, one map entry
and the optional parent assignment per row, with consecutive surrogate
keys. -/
theorem stopsPass1_foldl (rows : List Row) : ∀ (st : StopsLoadState),
    (∀ row ∈ rows, ∀ r ∈ st.tbl,
      r.stopId ≠ stopKey row ∨ stopKey row = none) →
    (rows.map stopKey).Nodup →
    st.nextPk ≠ 0 →
    rows.foldl stopsPass1Step st =
      ⟨st.tbl ++ tblOf st.nextPk rows,
        st.nextPk + rows.length,
        (mapEntriesOf st.nextPk rows).reverse ++ st.stopMap,
        st.parentAssignments ++ paEntriesOf st.nextPk rows⟩ := by
  induction rows with
  | nil =>
    intro st _ _ _
    cases st
    simp [tblOf, mapEntriesOf, paEntriesOf]
  | cons row rest ih =>
    intro st hfresh hnodup hnz
    have hres : upsertStop st.tbl st.nextPk (stopKey row) (stopNameOf row) =
        (st.tbl ++ [⟨st.nextPk, stopKey row, stopNameOf row, none⟩],
          st.nextPk + 1, st.nextPk) := by
      cases hk : stopKey row with
      | none => rw [upsertStop]
      | some s =>
        have hfind : st.tbl.find? (fun r => r.stopId == some s) = none := by
          rw [List.find?_eq_none]
          intro r hr
          rcases hfresh row (List.mem_cons_self _ _) r hr with h | h
          · rw [hk] at h
            simp [h]
          · rw [hk] at h
            cases h
        rw [upsertStop, hfind]
    have hstep : stopsPass1Step st row =
        ⟨st.tbl ++ [⟨st.nextPk, stopKey row, stopNameOf row, none⟩],
          st.nextPk + 1,
          (rawStopId row, st.nextPk) :: st.stopMap,
          st.parentAssignments ++
            (if truthyStr (rawParent row) then
              [(st.nextPk, (rawParent row).getD [])] else [])⟩ := by
      simp only [stopsPass1Step, hres]
      rw [if_pos hnz]
    rw [List.foldl_cons, hstep]
    rw [List.map_cons, List.nodup_cons] at hnodup
    have hih := ih
      ⟨st.tbl ++ [⟨st.nextPk, stopKey row, stopNameOf row, none⟩],
        st.nextPk + 1,
        (rawStopId row, st.nextPk) :: st.stopMap,
        st.parentAssignments ++
          (if truthyStr (rawParent row) then
            [(st.nextPk, (rawParent row).getD [])] else [])⟩
      (by
        intro row' hrow' r hr
        rw [List.mem_append] at hr
        rcases hr with hr | hr
        · exact hfresh row' (List.mem_cons_of_mem _ hrow') r hr
        · rw [List.mem_singleton] at hr
          subst hr
          left
          intro hcontra
          have hc : stopKey row = stopKey row' := hcontra
          exact hnodup.1 (by
            rw [hc]
            exact List.mem_map_of_mem stopKey hrow'))
      hnodup.2
      (Nat.succ_ne_zero st.nextPk)
    rw [hih]
    simp only [tblOf, mapEntriesOf, paEntriesOf, List.reverse_cons,
      List.length_cons, StopsLoadState.mk.injEq]
    refine ⟨?_, by omega, ?_, ?_⟩
    · rw [List.append_assoc]
      rfl
    · rw [List.append_assoc]
      rfl
    · rw [List.append_assoc]

/-- A keyed lookup in the completed map: with the target row's raw id
at a known position and no later row sharing it, the lookup returns
that row's surrogate key. -/
theorem mapLookup_split (a : List Char) (n : Nat) (xs ys : List Row)
    (A : Row) (rest : List (Option (List Char) × Nat))
    (hraw : rawStopId A = some a)
    (hys : ∀ row ∈ ys, rawStopId row ≠ some a) :
    mapLookup ((mapEntriesOf n (xs ++ A :: ys)).reverse ++ rest) (some a) =
      some (n + xs.length) := by
  rw [mapEntriesOf_append]
  rw [show mapEntriesOf (n + xs.length) (A :: ys) =
    (rawStopId A, n + xs.length) :: mapEntriesOf (n + xs.length + 1) ys
    from rfl]
  rw [List.reverse_append, List.reverse_cons, List.append_assoc]
  unfold mapLookup
  rw [List.find?_append]
  have h1 : (mapEntriesOf (n + xs.length + 1) ys).reverse.find?
      (fun p => p.1 == some a) = none := by
    rw [List.find?_eq_none]
    intro p hp
    rw [List.mem_reverse] at hp
    obtain ⟨row, hrow, hid⟩ := mapEntriesOf_mem ys _ p hp
    simp only [hid]
    intro hcontra
    exact hys row hrow (by simpa using hcontra)
  rw [List.find?_append, h1, Option.none_or, List.find?_cons_of_pos _
    (by rw [hraw]; simp)]
  rfl

theorem find?_map_pres {α : Type} (p : α → Bool) (f : α → α) (l : List α)
    (hf : ∀ v, p (f v) = p v) :
    (l.map f).find? p = (l.find? p).map f := by
  induction l with
  | nil => rfl
  | cons x xs ih =>
    by_cases hx : p x = true
    · rw [List.map_cons, List.find?_cons_of_pos _ (by rw [hf]; exact hx),
        List.find?_cons_of_pos _ hx]
      rfl
    · rw [List.map_cons, List.find?_cons_of_neg _ (by rw [hf]; exact hx),
        List.find?_cons_of_neg _ hx, ih]

/-- The stored row carrying a given surrogate key. -/
def rowAt (tbl : List StopsDbRow) (pk : Nat) : Option StopsDbRow :=
  tbl.find? (fun r => r.pk == pk)

theorem rowAt_applyParent_ne (tbl : List StopsDbRow) (c ppk pk : Nat)
    (hne : pk ≠ c) :
    rowAt (applyParent tbl c ppk) pk = rowAt tbl pk := by
  unfold rowAt applyParent
  rw [find?_map_pres _ _ _ (by
    intro v
    by_cases hv : (v.pk == c) = true
    · rw [if_pos hv]
    · rw [if_neg hv])]
  cases hfind : tbl.find? (fun r => r.pk == pk) with
  | none => rfl
  | some r0 =>
    simp only [Option.map_some']
    have h0 : r0.pk = pk := by simpa using List.find?_some hfind
    rw [if_neg (by simp [h0, hne])]

theorem rowAt_applyParent_eq (tbl : List StopsDbRow) (ppk pk : Nat) :
    rowAt (applyParent tbl pk ppk) pk =
      (rowAt tbl pk).map
        (fun r => { r with parentStation := some ppk }) := by
  unfold rowAt applyParent
  rw [find?_map_pres _ _ _ (by
    intro v
    by_cases hv : (v.pk == pk) = true
    · rw [if_pos hv]
    · rw [if_neg hv])]
  cases hfind : tbl.find? (fun r => r.pk == pk) with
  | none => rfl
  | some r0 =>
    simp only [Option.map_some']
    rw [if_pos (List.find?_some hfind)]

/-- Assignments targeting other surrogate keys never touch a row. -/
theorem stopsPass2_rowAt_ne (m : List (Option (List Char) × Nat))
    (pas : List (Nat × List Char)) :
    ∀ (tbl : List StopsDbRow) (pk : Nat), (∀ q ∈ pas, q.1 ≠ pk) →
    rowAt (stopsPass2 m pas tbl) pk = rowAt tbl pk := by
  induction pas with
  | nil => intro tbl pk _; rfl
  | cons q rest ih =>
    intro tbl pk h
    have hcons : stopsPass2 m (q :: rest) tbl =
        stopsPass2 m rest (stopsPass2Step m tbl q) := rfl
    rw [hcons, ih _ pk (fun q' hq' => h q' (List.mem_cons_of_mem _ hq'))]
    cases hl : truthyPk (mapLookup m (some q.2)) with
    | none => simp only [stopsPass2Step, hl]
    | some ppk =>
      simp only [stopsPass2Step, hl]
      exact rowAt_applyParent_ne tbl q.1 ppk pk
        (fun he => h q (List.mem_cons_self _ _) he.symm)

/-- The second pass is a pointwise row transformation preserving every
row's surrogate key and stop id (only `parent_station` is written). -/
theorem stopsPass2_eq_map (m : List (Option (List Char) × Nat))
    (pas : List (Nat × List Char)) :
    ∃ F : StopsDbRow → StopsDbRow,
      (∀ tbl, stopsPass2 m pas tbl = tbl.map F) ∧
      (∀ r, (F r).pk = r.pk ∧ (F r).stopId = r.stopId) := by
  induction pas with
  | nil =>
    exact ⟨id, fun tbl => (List.map_id tbl).symm, fun r => ⟨rfl, rfl⟩⟩
  | cons q rest ih =>
    obtain ⟨F, hF, hpres⟩ := ih
    have hcons : ∀ tbl, stopsPass2 m (q :: rest) tbl =
        stopsPass2 m rest (stopsPass2Step m tbl q) := fun tbl => rfl
    cases hl : truthyPk (mapLookup m (some q.2)) with
    | none =>
      refine ⟨F, fun tbl => ?_, hpres⟩
      rw [hcons]
      simp only [stopsPass2Step, hl]
      exact hF _
    | some ppk =>
      refine ⟨fun r => F (if r.pk == q.1 then
        { r with parentStation := some ppk } else r), fun tbl => ?_,
        fun r => ?_⟩
      · rw [hcons]
        simp only [stopsPass2Step, hl, applyParent]
        rw [hF, List.map_map]
        rfl
      · constructor
        · rw [(hpres _).1]
          by_cases hv : (r.pk == q.1) = true
          · rw [if_pos hv]
          · rw [if_neg hv]
        · rw [(hpres _).2]
          by_cases hv : (r.pk == q.1) = true
          · rw [if_pos hv]
          · rw [if_neg hv]

/-- Lookup of a row by surrogate key in the first-pass table. -/
theorem rowAt_tblOf (n : Nat) (xs ys : List Row) (B : Row) :
    rowAt (tblOf n (xs ++ B :: ys)) (n + xs.length) =
      some ⟨n + xs.length, stopKey B, stopNameOf B, none⟩ := by
  unfold rowAt
  rw [tblOf_append, List.find?_append]
  have h1 : (tblOf n xs).find? (fun r => r.pk == n + xs.length) = none := by
    rw [List.find?_eq_none]
    intro r hr
    have h2 := (tblOf_mem xs n r hr).1.2.1
    simp only [beq_iff_eq]
    omega
  rw [h1, Option.none_or]
  rw [show tblOf (n + xs.length) (B :: ys) =
    ⟨n + xs.length, stopKey B, stopNameOf B, none⟩ ::
      tblOf (n + xs.length + 1) ys from rfl]
  rw [List.find?_cons_of_pos _ (by simp)]

/-- The element of the first-pass table contributed by a given row. -/
theorem tblOf_mem_at (n : Nat) (xs ys : List Row) (A : Row) :
    (⟨n + xs.length, stopKey A, stopNameOf A, none⟩ : StopsDbRow) ∈
      tblOf n (xs ++ A :: ys) := by
  rw [tblOf_append]
  refine List.mem_append_right _ ?_
  rw [show tblOf (n + xs.length) (A :: ys) =
    ⟨n + xs.length, stopKey A, stopNameOf A, none⟩ ::
      tblOf (n + xs.length + 1) ys from rfl]
  exact List.mem_cons_self _ _

/-- With pairwise distinct keys, a row of the first-pass table with a
given non-null stop id is the one contributed by the matching file
row. -/
theorem tblOf_unique_key (n : Nat) (xs ys : List Row) (B : Row)
    (bkey : Option (List Char)) (hkey : stopKey B = bkey)
    (hxs : ∀ row ∈ xs, stopKey row ≠ bkey)
    (hys : ∀ row ∈ ys, stopKey row ≠ bkey) :
    ∀ r ∈ tblOf n (xs ++ B :: ys), r.stopId = bkey →
      r = ⟨n + xs.length, bkey, stopNameOf B, none⟩ := by
  rw [tblOf_append]
  intro r hr hid
  rw [List.mem_append] at hr
  rcases hr with hr | hr
  · obtain ⟨_, row, hrow, hid'⟩ := tblOf_mem xs n r hr
    exact absurd (hid'.symm.trans hid) (hxs row hrow)
  · rw [show tblOf (n + xs.length) (B :: ys) =
      ⟨n + xs.length, stopKey B, stopNameOf B, none⟩ ::
        tblOf (n + xs.length + 1) ys from rfl, List.mem_cons] at hr
    rcases hr with hr | hr
    · rw [hr, hkey]
    · obtain ⟨_, row, hrow, hid'⟩ := tblOf_mem ys (n + xs.length + 1) r hr
      exact absurd (hid'.symm.trans hid) (hys row hrow)

/-- Key distinctness on both sides of a distinguished row. -/
theorem nodup_middle_keys (xs ys : List Row) (X : Row)
    (h : ((xs ++ X :: ys).map stopKey).Nodup) :
    (∀ row ∈ xs, stopKey row ≠ stopKey X) ∧
      (∀ row ∈ ys, stopKey row ≠ stopKey X) := by
  rw [List.map_append, List.map_cons] at h
  have h2 := List.nodup_middle.mp h
  rw [List.nodup_cons] at h2
  have hnot := h2.1
  rw [List.mem_append] at hnot
  push_neg at hnot
  constructor
  · intro row hrow hc
    exact hnot.1 (hc ▸ List.mem_map_of_mem stopKey hrow)
  · intro row hrow hc
    exact hnot.2 (hc ▸ List.mem_map_of_mem stopKey hrow)

/-- Claim C4: for stops A (no parent_station) and B (parent_station =
A's natural id) appearing in the file in either relative order, with
the file's stop keys pairwise distinct: the first pass inserts every
stop with a null parent column, and after the second update pass the
stored row for B carries A's surrogate key as its parent — and every
stored row with B's stop id does. -/
theorem stops_two_pass_parent (rows : List Row) (A B : Row)
    (a b : List Char)
    (hnodup : (rows.map stopKey).Nodup)
    (hmemA : A ∈ rows) (hmemB : B ∈ rows)
    (hAraw : rawStopId A = some a) (haNe : a ≠ [])
    (hBraw : rawStopId B = some b) (hbNe : b ≠ [])
    (hab : a ≠ b)
    (hApar : truthyStr (rawParent A) = false)
    (hBpar : rawParent B = some a) :
    (∀ r ∈ (stopsPass1 rows).tbl, r.parentStation = none) ∧
    ∃ pkA,
      (∃ rA ∈ importStops rows, rA.pk = pkA ∧ rA.stopId = some a) ∧
      (∃ rB ∈ importStops rows, rB.stopId = some b ∧
        rB.parentStation = some pkA) ∧
      (∀ r ∈ importStops rows, r.stopId = some b →
        r.parentStation = some pkA) := by
  have hkeyA : stopKey A = some a := by
    unfold stopKey
    rw [show rowGet A ("stop_id".toList) = some a from hAraw]
    show (if a = [] then none else some a) = some a
    rw [if_neg haNe]
  have hkeyB : stopKey B = some b := by
    unfold stopKey
    rw [show rowGet B ("stop_id".toList) = some b from hBraw]
    show (if b = [] then none else some b) = some b
    rw [if_neg hbNe]
  have htrA : truthyStr (some a) = true := by
    cases a with
    | nil => exact absurd rfl haNe
    | cons c cs => rfl
  obtain ⟨xsA, ysA, hdecA⟩ := List.append_of_mem hmemA
  obtain ⟨xsB, ysB, hdecB⟩ := List.append_of_mem hmemB
  have hnodupA : ((xsA ++ A :: ysA).map stopKey).Nodup := by
    rw [← hdecA]; exact hnodup
  have hnodupB : ((xsB ++ B :: ysB).map stopKey).Nodup := by
    rw [← hdecB]; exact hnodup
  have hsidesA := nodup_middle_keys xsA ysA A hnodupA
  have hsidesB := nodup_middle_keys xsB ysB B hnodupB
  have hp1 := stopsPass1_foldl rows ⟨[], 1, [], []⟩
    (by intro _ _ r hr; cases hr) hnodup one_ne_zero
  have htbl : (stopsPass1 rows).tbl = tblOf 1 rows := by
    unfold stopsPass1
    rw [hp1]
    rfl
  have hsm : (stopsPass1 rows).stopMap = (mapEntriesOf 1 rows).reverse := by
    unfold stopsPass1
    rw [hp1]
    show (mapEntriesOf 1 rows).reverse ++ [] = _
    rw [List.append_nil]
  have hpa0 : (stopsPass1 rows).parentAssignments = paEntriesOf 1 rows := by
    unfold stopsPass1
    rw [hp1]
    rfl
  have hysA : ∀ row ∈ ysA, rawStopId row ≠ some a := by
    intro row hrow hc
    have hkr : stopKey row = some a := by
      unfold stopKey
      rw [show rowGet row ("stop_id".toList) = some a from hc]
      show (if a = [] then none else some a) = some a
      rw [if_neg haNe]
    exact hsidesA.2 row hrow (hkr.trans hkeyA.symm)
  have hmapm : mapLookup ((mapEntriesOf 1 rows).reverse) (some a) =
      some (xsA.length + 1) := by
    rw [hdecA]
    have h := mapLookup_split a 1 xsA ysA A [] hAraw hysA
    rw [List.append_nil, Nat.add_comm 1 xsA.length] at h
    exact h
  have hpaq : (stopsPass1 rows).parentAssignments =
      paEntriesOf 1 xsB ++ (xsB.length + 1, a) ::
        paEntriesOf (xsB.length + 1 + 1) ysB := by
    rw [hpa0, hdecB, paEntriesOf_append]
    have hstep : paEntriesOf (1 + xsB.length) (B :: ysB) =
        (xsB.length + 1, a) :: paEntriesOf (xsB.length + 1 + 1) ysB := by
      rw [show paEntriesOf (1 + xsB.length) (B :: ysB) =
        (if truthyStr (rawParent B) then
          [(1 + xsB.length, (rawParent B).getD [])] else []) ++
          paEntriesOf (1 + xsB.length + 1) ysB from rfl]
      rw [hBpar, if_pos htrA, Nat.add_comm 1 xsB.length]
      rfl
    rw [hstep]
  have hP1 : ∀ q ∈ paEntriesOf 1 xsB, q.1 ≠ xsB.length + 1 := by
    intro q hq
    have h := paEntriesOf_mem xsB 1 q hq
    omega
  have hP2 : ∀ q ∈ paEntriesOf (xsB.length + 1 + 1) ysB,
      q.1 ≠ xsB.length + 1 := by
    intro q hq
    have h := paEntriesOf_mem ysB (xsB.length + 1 + 1) q hq
    omega
  have hrowB : rowAt (tblOf 1 rows) (xsB.length + 1) =
      some ⟨xsB.length + 1, some b, stopNameOf B, none⟩ := by
    rw [hdecB]
    have h := rowAt_tblOf 1 xsB ysB B
    rw [hkeyB, Nat.add_comm 1 xsB.length] at h
    exact h
  have hrowAt : rowAt (importStops rows) (xsB.length + 1) =
      some ⟨xsB.length + 1, some b, stopNameOf B,
        some (xsA.length + 1)⟩ := by
    unfold importStops
    rw [htbl, hsm, hpaq]
    have hsplit : stopsPass2 ((mapEntriesOf 1 rows).reverse)
        (paEntriesOf 1 xsB ++ (xsB.length + 1, a) ::
          paEntriesOf (xsB.length + 1 + 1) ysB) (tblOf 1 rows) =
        stopsPass2 ((mapEntriesOf 1 rows).reverse)
          (paEntriesOf (xsB.length + 1 + 1) ysB)
          (stopsPass2Step ((mapEntriesOf 1 rows).reverse)
            (stopsPass2 ((mapEntriesOf 1 rows).reverse)
              (paEntriesOf 1 xsB) (tblOf 1 rows))
            (xsB.length + 1, a)) := by
      unfold stopsPass2
      rw [List.foldl_append, List.foldl_cons]
    rw [hsplit, stopsPass2_rowAt_ne _ _ _ _ hP2]
    have hstep2 : stopsPass2Step ((mapEntriesOf 1 rows).reverse)
        (stopsPass2 ((mapEntriesOf 1 rows).reverse)
          (paEntriesOf 1 xsB) (tblOf 1 rows)) (xsB.length + 1, a) =
        applyParent (stopsPass2 ((mapEntriesOf 1 rows).reverse)
          (paEntriesOf 1 xsB) (tblOf 1 rows)) (xsB.length + 1)
          (xsA.length + 1) := by
      unfold stopsPass2Step
      dsimp only
      rw [hmapm]
      rfl
    rw [hstep2, rowAt_applyParent_eq,
      stopsPass2_rowAt_ne _ _ _ _ hP1, hrowB]
    rfl
  obtain ⟨F, hFall, hFpres⟩ :=
    stopsPass2_eq_map ((mapEntriesOf 1 rows).reverse) (paEntriesOf 1 rows)
  have hfinal : importStops rows = (tblOf 1 rows).map F := by
    unfold importStops
    rw [htbl, hsm, hpa0]
    exact hFall _
  refine ⟨?_, xsA.length + 1, ?_, ?_, ?_⟩
  · intro r hr
    rw [htbl] at hr
    exact (tblOf_mem rows 1 r hr).1.2.2
  · have ha0 : (⟨xsA.length + 1, some a, stopNameOf A, none⟩ :
        StopsDbRow) ∈ tblOf 1 rows := by
      rw [hdecA]
      have h := tblOf_mem_at 1 xsA ysA A
      rw [hkeyA, Nat.add_comm 1 xsA.length] at h
      exact h
    refine ⟨F ⟨xsA.length + 1, some a, stopNameOf A, none⟩, ?_, ?_, ?_⟩
    · rw [hfinal]
      exact List.mem_map_of_mem F ha0
    · exact (hFpres _).1
    · exact (hFpres _).2
  · exact ⟨⟨xsB.length + 1, some b, stopNameOf B, some (xsA.length + 1)⟩,
      List.mem_of_find?_eq_some hrowAt, rfl, rfl⟩
  · intro r hr hid
    rw [hfinal] at hr
    obtain ⟨r0, hr0, hFr0⟩ := List.mem_map.mp hr
    have hid0 : r0.stopId = some b := by
      rw [← (hFpres r0).2, hFr0, hid]
    have hxsB' : ∀ row ∈ xsB, stopKey row ≠ some b := by
      intro row hrow hc
      exact hsidesB.1 row hrow (hc.trans hkeyB.symm)
    have hysB' : ∀ row ∈ ysB, stopKey row ≠ some b := by
      intro row hrow hc
      exact hsidesB.2 row hrow (hc.trans hkeyB.symm)
    have hr0' : r0 ∈ tblOf 1 (xsB ++ B :: ysB) := by
      rw [← hdecB]
      exact hr0
    have hr0eq := tblOf_unique_key 1 xsB ysB B (some b) hkeyB hxsB' hysB'
      r0 hr0' hid0
    rw [Nat.add_comm 1 xsB.length] at hr0eq
    have hFb0 : F (⟨xsB.length + 1, some b, stopNameOf B, none⟩ :
        StopsDbRow) = ⟨xsB.length + 1, some b, stopNameOf B,
          some (xsA.length + 1)⟩ := by
      have h1 : rowAt ((tblOf 1 rows).map F) (xsB.length + 1) =
          (rowAt (tblOf 1 rows) (xsB.length + 1)).map F := by
        unfold rowAt
        exact find?_map_pres _ F _ (by intro v; rw [(hFpres v).1])
      rw [← hfinal, hrowAt, hrowB] at h1
      simp only [Option.map_some'] at h1
      injection h1 with h2
      exact h2.symm
    rw [← hFr0, hr0eq, hFb0]

/-- A concrete parent stop `A`. -/
def c4RowA : Row :=
  [("stop_id".toList, "A".toList), ("stop_name".toList, "Main".toList),
    ("parent_station".toList, [])]

/-- A concrete child stop `B` referencing `A`. -/
def c4RowB : Row :=
  [("stop_id".toList, "B".toList), ("stop_name".toList, "Plat".toList),
    ("parent_station".toList, "A".toList)]

/-- A concrete stops file listing the child before its parent. -/
def c4Rows : List Row := [c4RowB, c4RowA]

/-- Witness for claim C4: a two-stop file with the child listed before
the parent satisfies every hypothesis, and after the two passes the
child's stored row carries the parent's surrogate key. -/
theorem stops_two_pass_parent_witness :
    ((c4Rows.map stopKey).Nodup ∧ c4RowA ∈ c4Rows ∧ c4RowB ∈ c4Rows ∧
      rawStopId c4RowA = some ("A".toList) ∧
      "A".toList ≠ ([] : List Char) ∧
      rawStopId c4RowB = some ("B".toList) ∧
      "B".toList ≠ ([] : List Char) ∧
      "A".toList ≠ "B".toList ∧
      truthyStr (rawParent c4RowA) = false ∧
      rawParent c4RowB = some ("A".toList)) ∧
    ((∀ r ∈ (stopsPass1 c4Rows).tbl, r.parentStation = none) ∧
      ∃ pkA,
        (∃ rA ∈ importStops c4Rows, rA.pk = pkA ∧
          rA.stopId = some ("A".toList)) ∧
        (∃ rB ∈ importStops c4Rows, rB.stopId = some ("B".toList) ∧
          rB.parentStation = some pkA) ∧
        (∀ r ∈ importStops c4Rows, r.stopId = some ("B".toList) →
          r.parentStation = some pkA)) :=
  ⟨by decide,
    stops_two_pass_parent c4Rows c4RowA c4RowB ("A".toList) ("B".toList)
      (by decide) (by decide) (by decide) (by decide) (by decide)
      (by decide) (by decide) (by decide) (by decide) (by decide)⟩

/-- A concrete remapping table knowing only route `R1`. -/
def c3RouteMap : List Char → Option Nat :=
  fun s => if s = "R1".toList then some 5 else none

/-- A concrete trips row referencing the unknown route `RX`. -/
def c3Row : Row :=
  [("route_id".toList, "RX".toList), ("trip_id".toList, "T1".toList)]

/-- Witness for claim C3: a concrete remapping table containing only
`R1` and a trips row referencing `RX`: the row is unresolved, is
dropped, and resolvable rows never carry a null route. -/
theorem trips_drop_unresolved_witness :
    tripRouteLookup c3RouteMap c3Row = none ∧
      (tripsInsertOf 1 c3RouteMap c3Row = none ∧
        (∀ xs ys : List Row, importTripsRows 1 c3RouteMap (xs ++ c3Row :: ys) =
          importTripsRows 1 c3RouteMap (xs ++ ys)) ∧
        (∀ rows : List Row, ∀ t ∈ importTripsRows 1 c3RouteMap rows,
          t.routePk ≠ none)) :=
  ⟨by decide, trips_drop_unresolved 1 c3RouteMap c3Row (by decide)⟩

/-! ## Decoded GTFS-realtime messages

Shapes of the protobuf messages as decoded by `protobufjs`
(`transit_realtime`): absent fields are `none`; repeated fields are
lists.  Strings are `List Char`, enum values and timestamps numbers. -/

structure StopTimeEvent where
  delay : Option Int
deriving DecidableEq

structure StopTimeUpdate where
  arrival : Option StopTimeEvent
  departure : Option StopTimeEvent
deriving DecidableEq

structure TripDescriptor where
  tripId : Option (List Char)
  scheduleRelationship : Option Int
deriving DecidableEq

structure TripUpdateMsg where
  trip : Option TripDescriptor
  delay : Option Int
  stopTimeUpdate : List StopTimeUpdate
deriving DecidableEq

structure TranslatedString where
  translation : List (Option (List Char))
deriving DecidableEq

structure TimeRange where
  start : Option Nat
  endTime : Option Nat
deriving DecidableEq

structure EntitySelector where
  routeId : Option (List Char)
  stopId : Option (List Char)
  trip : Option TripDescriptor
deriving DecidableEq

structure AlertMsg where
  activePeriod : List TimeRange
  informedEntity : List EntitySelector
  cause : Option Nat
  effect : Option Nat
  headerText : Option TranslatedString
  descriptionText : Option TranslatedString
  severityLevel : Option Nat
deriving DecidableEq

structure FeedEntity where
  id : Option (List Char)
  tripUpdate : Option TripUpdateMsg
  alert : Option AlertMsg
deriving DecidableEq

structure FeedHeader where
  timestamp : Option Nat
deriving DecidableEq

structure FeedMessage where
  header : Option FeedHeader
  entity : List FeedEntity
deriving DecidableEq

/-- JavaScript `x || d` on a numeric field: `undefined` and `0` are
falsy. -/
def jsOrI : Option Int → Int → Int
  | none, d => d
  | some x, d => if x = 0 then d else x

theorem jsOrI_some (x d : Int) : jsOrI (some x) d = if x = 0 then d else x :=
  rfl

/-- The effective delay of a trip update
(`Import511RealtimeWorkflow.ts` lines 116–123):
`entity.tripUpdate.delay || 0`, and when that is falsy and stop-time
updates exist, `firstUpdate.arrival?.delay ||
firstUpdate.departure?.delay || 0`. -/
def effectiveDelay (tu : TripUpdateMsg) : Int :=
  let d := jsOrI tu.delay 0
  if d = 0 then
    match tu.stopTimeUpdate with
    | [] => 0
    | u :: _ =>
      jsOrI (u.arrival.bind StopTimeEvent.delay)
        (jsOrI (u.departure.bind StopTimeEvent.delay) 0)
  else d

/-- The stored status string (lines 125–131): `SCHEDULED` unless the
trip's `scheduleRelationship` is truthy and equals 1, 2 or 3. -/
def statusOf (trip : TripDescriptor) : List Char :=
  match trip.scheduleRelationship with
  | none => "SCHEDULED".toList
  | some rel =>
    if rel = 0 then "SCHEDULED".toList
    else if rel = 1 then "ADDED".toList
    else if rel = 2 then "UNSCHEDULED".toList
    else if rel = 3 then "CANCELED".toList
    else "SCHEDULED".toList

/-! ## trip_updates historization (claim C6)

The `trip_updates` table (migration 0002) has a surrogate
`update_pk`; the deduplication migration adds
`CREATE UNIQUE INDEX idx_trip_updates_unique_ingest ON
trip_updates(feed_source_id, trip_id, updated_time)`, and rows are
written with `INSERT OR IGNORE`. -/

structure TripUpdateRow where
  feedSourceId : Nat
  tripId : List Char
  tripPk : Option Nat
  delay : Int
  status : List Char
  updatedTime : Nat
deriving DecidableEq

/-- Two rows collide on the unique ingest index. -/
def tuSameKey (x r : TripUpdateRow) : Bool :=
  x.feedSourceId == r.feedSourceId && x.tripId == r.tripId &&
    x.updatedTime == r.updatedTime

/-- `INSERT OR IGNORE`: the row is appended unless a row with the same
`(feed_source_id, trip_id, updated_time)` key already exists, in which
case the statement does nothing. -/
def insertOrIgnoreTU (tbl : List TripUpdateRow) (r : TripUpdateRow) :
    List TripUpdateRow :=
  if tbl.any (fun x => tuSameKey x r) then tbl else tbl ++ [r]

/-- Claim C6: trip-update facts are historized. Starting from a table
holding no row for either observation's ingest key, inserting two
observations of the same (source, trip): with different timestamps
both persist as rows appended after the untouched existing rows; with
the same timestamp the second insert is ignored outright (the table is
unchanged, the first observation's row is retained as written, and
exactly one row carries that (source, trip, timestamp) key). -/
theorem trip_updates_historization (tbl : List TripUpdateRow)
    (r1 r2 : TripUpdateRow)
    (hsrc : r2.feedSourceId = r1.feedSourceId)
    (htrip : r2.tripId = r1.tripId)
    (h1 : ∀ x ∈ tbl, tuSameKey x r1 = false)
    (h2 : ∀ x ∈ tbl, tuSameKey x r2 = false) :
    (r2.updatedTime ≠ r1.updatedTime →
      insertOrIgnoreTU (insertOrIgnoreTU tbl r1) r2 = tbl ++ [r1, r2]) ∧
    (r2.updatedTime = r1.updatedTime →
      insertOrIgnoreTU (insertOrIgnoreTU tbl r1) r2 = tbl ++ [r1] ∧
      ((tbl ++ [r1]).filter (fun x => tuSameKey x r2)).length = 1) := by
  have hstep1 : insertOrIgnoreTU tbl r1 = tbl ++ [r1] := by
    unfold insertOrIgnoreTU
    rw [if_neg]
    rw [List.any_eq_true]
    rintro ⟨x, hx, hkey⟩
    rw [h1 x hx] at hkey
    cases hkey
  have hany2 : ∀ b : Bool, tuSameKey r1 r2 = b →
      (tbl ++ [r1]).any (fun x => tuSameKey x r2) = b := by
    intro b hb
    rw [List.any_append]
    have htl : tbl.any (fun x => tuSameKey x r2) = false := by
      rw [List.any_eq_false]
      intro x hx
      rw [h2 x hx]
      exact Bool.false_ne_true
    rw [htl, Bool.false_or]
    show (tuSameKey r1 r2 || false) = b
    rw [Bool.or_false, hb]
  constructor
  · intro hne
    have hkey12 : tuSameKey r1 r2 = false := by
      unfold tuSameKey
      have hti : (r1.updatedTime == r2.updatedTime) = false := by
        rw [beq_eq_false_iff_ne]
        exact fun he => hne (he.symm)
      rw [hti, Bool.and_false]
    rw [hstep1]
    unfold insertOrIgnoreTU
    rw [if_neg (by rw [hany2 false hkey12]; exact Bool.false_ne_true)]
    rw [List.append_assoc]
    rfl
  · intro heq
    have hkey12 : tuSameKey r1 r2 = true := by
      unfold tuSameKey
      rw [beq_iff_eq.mpr hsrc.symm, beq_iff_eq.mpr htrip.symm,
        beq_iff_eq.mpr heq.symm]
      rfl
    refine ⟨?_, ?_⟩
    · rw [hstep1]
      unfold insertOrIgnoreTU
      rw [if_pos (by rw [hany2 true hkey12])]
    · rw [List.filter_append]
      have htl : tbl.filter (fun x => tuSameKey x r2) = [] := by
        rw [List.filter_eq_nil_iff]
        intro x hx
        rw [h2 x hx]
        exact Bool.false_ne_true
      rw [htl, List.nil_append]
      simp [hkey12]

/-- A table row for an unrelated trip. -/
def c6Tbl : List TripUpdateRow :=
  [⟨1, "T0".toList, none, 0, "SCHEDULED".toList, 50⟩]

/-- First observation of trip `T1`. -/
def c6R1 : TripUpdateRow :=
  ⟨1, "T1".toList, some 7, 60, "SCHEDULED".toList, 100⟩

/-- Later observation of trip `T1` at a different timestamp. -/
def c6R2 : TripUpdateRow :=
  ⟨1, "T1".toList, some 7, 90, "CANCELED".toList, 200⟩

/-- Witness for claim C6 at concrete rows. -/
theorem trip_updates_historization_witness :
    (c6R2.feedSourceId = c6R1.feedSourceId ∧ c6R2.tripId = c6R1.tripId ∧
      (∀ x ∈ c6Tbl, tuSameKey x c6R1 = false) ∧
      (∀ x ∈ c6Tbl, tuSameKey x c6R2 = false)) ∧
    ((c6R2.updatedTime ≠ c6R1.updatedTime →
      insertOrIgnoreTU (insertOrIgnoreTU c6Tbl c6R1) c6R2 =
        c6Tbl ++ [c6R1, c6R2]) ∧
    (c6R2.updatedTime = c6R1.updatedTime →
      insertOrIgnoreTU (insertOrIgnoreTU c6Tbl c6R1) c6R2 =
        c6Tbl ++ [c6R1] ∧
      ((c6Tbl ++ [c6R1]).filter (fun x => tuSameKey x c6R2)).length = 1)) :=
  ⟨⟨by decide, by decide, by decide, by decide⟩,
    trip_updates_historization c6Tbl c6R1 c6R2 (by decide) (by decide)
      (by decide) (by decide)⟩

/-! ## Trip-update sync (claims C6, C8) -/

/-- The realtime-relevant database state: feed metadata, the active
schedule's trips (as (feed_version_id, trip_id, trip_pk) rows) and the
historized trip_updates table. -/
structure RtDb where
  feedSource : List FeedSourceRow
  feedVersion : List FeedVersionRow
  trips : List (Nat × List Char × Nat)
  tripUpdates : List TripUpdateRow
deriving DecidableEq

/-- `getFeedContext` (`realtime-utils.ts` lines 27–53): throws when the
source is missing; the version id is the active version's id or null. -/
def getFeedContext (db : RtDb) (agency : String) :
    Except String (Nat × Option Nat) :=
  match db.feedSource.find? (fun s => s.name == agency) with
  | none => .error "Feed source not found"
  | some s =>
    .ok (s.id, (db.feedVersion.find?
      (fun v => v.sourceId == s.id && v.isActive)).map (·.id))

/-- `SELECT trip_pk FROM trips WHERE feed_version_id = ? AND trip_id
IN (...)` feeding the trip map. -/
def tripLookup (db : RtDb) (fv : Nat) (tid : List Char) : Option Nat :=
  (db.trips.find? (fun t => t.1 == fv && t.2.1 == tid)).map (·.2.2)

/-- The stored timestamp (lines 106–108): the header timestamp when
truthy, else the wall clock. -/
def rtTimestamp (msg : FeedMessage) (nowSec : Nat) : Nat :=
  match msg.header with
  | none => nowSec
  | some h =>
    match h.timestamp with
    | none => nowSec
    | some t => if t = 0 then nowSec else t

/-- The values bound for one entity (lines 133–142):
`tripMap.get(tripId) || null` as the trip reference. -/
def mkTripUpdateRow (sid fv : Nat) (db : RtDb) (ts : Nat)
    (tu : TripUpdateMsg) (trip : TripDescriptor) (tid : List Char) :
    TripUpdateRow :=
  ⟨sid, tid, truthyPk (tripLookup db fv tid), effectiveDelay tu,
    statusOf trip, ts⟩

/-- The per-entity skip logic (lines 111–114): entities without a trip
update, a trip descriptor or a truthy trip id are skipped. -/
def tripUpdateRowOf (sid fv : Nat) (db : RtDb) (ts : Nat)
    (e : FeedEntity) : Option TripUpdateRow :=
  match e.tripUpdate with
  | none => none
  | some tu =>
    match tu.trip with
    | none => none
    | some trip =>
      match trip.tripId with
      | none => none
      | some tid =>
        if tid = [] then none
        else some (mkTripUpdateRow sid fv db ts tu trip tid)

/-- The batch built from one decoded message. -/
def tripUpdateRowsOf (sid fv : Nat) (db : RtDb) (ts : Nat)
    (msg : FeedMessage) : List TripUpdateRow :=
  msg.entity.filterMap (tripUpdateRowOf sid fv db ts)

/-- The TripUpdates sync step (lines 51–156): resolve the feed
context; with no active feed version return without touching the
database; otherwise insert-or-ignore one historized row per usable
entity. -/
def syncTripUpdates (db : RtDb) (agency : String) (msg : FeedMessage)
    (nowSec : Nat) : Except String RtDb :=
  match getFeedContext db agency with
  | .error e => .error e
  | .ok (_, none) => .ok db
  | .ok (sid, some fv) =>
    .ok
      { db with
        tripUpdates :=
          (tripUpdateRowsOf sid fv db (rtTimestamp msg nowSec) msg).foldl
            insertOrIgnoreTU db.tripUpdates }

/-- The ingest key of a trip_updates row. -/
def tuKey (r : TripUpdateRow) : Nat × List Char × Nat :=
  (r.feedSourceId, r.tripId, r.updatedTime)

theorem tuSameKey_iff (x r : TripUpdateRow) :
    tuSameKey x r = true ↔ tuKey x = tuKey r := by
  unfold tuSameKey tuKey
  rw [Bool.and_assoc, Bool.and_eq_true, Bool.and_eq_true,
    beq_iff_eq, beq_iff_eq, beq_iff_eq, Prod.mk.injEq, Prod.mk.injEq]

/-- A batch insert leaves a row with the key of any batch row in the
table (either a pre-existing duplicate or the inserted row itself). -/
theorem foldl_ignore_key_mem (rows : List TripUpdateRow)
    (k : Nat × List Char × Nat) :
    ∀ tbl : List TripUpdateRow,
      ((∃ r ∈ rows, tuKey r = k) ∨ (∃ x ∈ tbl, tuKey x = k)) →
      ∃ x ∈ rows.foldl insertOrIgnoreTU tbl, tuKey x = k := by
  induction rows with
  | nil =>
    intro tbl h
    rcases h with ⟨r, hr, _⟩ | h
    · cases hr
    · exact h
  | cons r rest ih =>
    intro tbl h
    rw [List.foldl_cons]
    apply ih
    have hsub : ∀ x ∈ tbl, x ∈ insertOrIgnoreTU tbl r := by
      intro x hx
      unfold insertOrIgnoreTU
      by_cases hd : tbl.any (fun y => tuSameKey y r) = true
      · rw [if_pos hd]; exact hx
      · rw [if_neg hd]; exact List.mem_append_left _ hx
    rcases h with ⟨r', hr', hk⟩ | ⟨x, hx, hk⟩
    · rw [List.mem_cons] at hr'
      rcases hr' with hr' | hr'
      · subst hr'
        right
        unfold insertOrIgnoreTU
        by_cases hd : tbl.any (fun y => tuSameKey y r') = true
        · rw [if_pos hd]
          obtain ⟨y, hy, hkey⟩ := List.any_eq_true.mp hd
          exact ⟨y, hy, ((tuSameKey_iff y r').mp hkey).trans hk⟩
        · rw [if_neg hd]
          exact ⟨r', List.mem_append_right _ (List.mem_cons_self _ _), hk⟩
      · exact Or.inl ⟨r', hr', hk⟩
    · exact Or.inr ⟨x, hsub x hx, hk⟩

/-- Every row of a batch-inserted table is an original row or a batch
row. -/
theorem foldl_ignore_subset (rows : List TripUpdateRow) :
    ∀ (tbl : List TripUpdateRow) (x : TripUpdateRow),
      x ∈ rows.foldl insertOrIgnoreTU tbl → x ∈ tbl ∨ x ∈ rows := by
  induction rows with
  | nil => intro tbl x hx; exact Or.inl hx
  | cons r rest ih =>
    intro tbl x hx
    rw [List.foldl_cons] at hx
    rcases ih _ x hx with hx' | hx'
    · unfold insertOrIgnoreTU at hx'
      by_cases hd : tbl.any (fun y => tuSameKey y r) = true
      · rw [if_pos hd] at hx'
        exact Or.inl hx'
      · rw [if_neg hd] at hx'
        rcases List.mem_append.mp hx' with h | h
        · exact Or.inl h
        · rw [List.mem_singleton] at h
          exact Or.inr (h ▸ List.mem_cons_self _ _)
    · exact Or.inr (List.mem_cons_of_mem _ hx')

/-- Shape of every row bound by the sync batch. -/
theorem tripUpdateRowsOf_form (sid fv : Nat) (db : RtDb) (ts : Nat)
    (msg : FeedMessage) :
    ∀ r ∈ tripUpdateRowsOf sid fv db ts msg,
      r.feedSourceId = sid ∧ r.updatedTime = ts ∧
      r.tripPk = truthyPk (tripLookup db fv r.tripId) := by
  intro r hr
  obtain ⟨e, _, hform⟩ := List.mem_filterMap.mp hr
  unfold tripUpdateRowOf at hform
  cases htu : e.tripUpdate with
  | none => rw [htu] at hform; cases hform
  | some tu =>
    rw [htu] at hform
    dsimp only at hform
    cases htr : tu.trip with
    | none => rw [htr] at hform; cases hform
    | some trip =>
      rw [htr] at hform
      dsimp only at hform
      cases hti : trip.tripId with
      | none => rw [hti] at hform; cases hform
      | some tid =>
        rw [hti] at hform
        dsimp only at hform
        by_cases hnil : tid = []
        · rw [if_pos hnil] at hform; cases hform
        · rw [if_neg hnil] at hform
          injection hform with hform
          rw [← hform]
          exact ⟨rfl, rfl, rfl⟩

/-- A database whose only feed version is inactive. -/
def c8Db : RtDb :=
  ⟨[⟨1, "SF", none, none⟩], [⟨2, 1, "511-SF-x", 0, none, none, false⟩],
    [], []⟩

/-- A decoded message carrying one well-formed trip-update fact. -/
def c8Msg : FeedMessage :=
  ⟨some ⟨some 50⟩,
    [⟨some ("e1".toList),
      some ⟨some ⟨some ("T9".toList), none⟩, some 120, []⟩, none⟩]⟩

/-- Counterexample to claim C8: the source exists but has no active
feed version; the message carries a decodable trip-update fact, yet
the sync returns with the database untouched — the fact is dropped,
not recorded with a null reference. -/
theorem rt_no_active_version_counterexample :
    syncTripUpdates c8Db "SF" c8Msg 100 = .ok c8Db ∧
    c8Db.tripUpdates = [] ∧
    (c8Msg.entity.filterMap FeedEntity.tripUpdate).length = 1 :=
  ⟨rfl, rfl, rfl⟩

/-- Claim C8 (amended, resolution part): with an active feed version,
a trip update whose natural trip id does not resolve in the active
version's trips is still recorded — the sync succeeds and the table
holds a row for its ingest key whose trip reference is null. -/
theorem rt_unresolved_trip_recorded (db : RtDb) (agency : String)
    (msg : FeedMessage) (nowSec sid fv : Nat) (e : FeedEntity)
    (tu : TripUpdateMsg) (trip : TripDescriptor) (tid : List Char)
    (db' : RtDb)
    (hctx : getFeedContext db agency = .ok (sid, some fv))
    (hmem : e ∈ msg.entity)
    (htu : e.tripUpdate = some tu) (htr : tu.trip = some trip)
    (hti : trip.tripId = some tid) (hnil : tid ≠ [])
    (hunres : tripLookup db fv tid = none)
    (hfresh : ∀ x ∈ db.tripUpdates,
      ¬(x.feedSourceId = sid ∧ x.tripId = tid ∧
        x.updatedTime = rtTimestamp msg nowSec))
    (hsync : syncTripUpdates db agency msg nowSec = .ok db') :
    ∃ r ∈ db'.tripUpdates, r.feedSourceId = sid ∧ r.tripId = tid ∧
      r.updatedTime = rtTimestamp msg nowSec ∧ r.tripPk = none := by
  have hdb' : db' =
      { db with
        tripUpdates :=
          (tripUpdateRowsOf sid fv db (rtTimestamp msg nowSec) msg).foldl
            insertOrIgnoreTU db.tripUpdates } := by
    unfold syncTripUpdates at hsync
    rw [hctx] at hsync
    injection hsync with hsync
    exact hsync.symm
  have hrow : mkTripUpdateRow sid fv db (rtTimestamp msg nowSec) tu trip
      tid ∈ tripUpdateRowsOf sid fv db (rtTimestamp msg nowSec) msg := by
    apply List.mem_filterMap.mpr
    refine ⟨e, hmem, ?_⟩
    unfold tripUpdateRowOf
    rw [htu]
    dsimp only
    rw [htr]
    dsimp only
    rw [hti]
    dsimp only
    rw [if_neg hnil]
  obtain ⟨x, hx, hk⟩ := foldl_ignore_key_mem
    (tripUpdateRowsOf sid fv db (rtTimestamp msg nowSec) msg)
    (sid, tid, rtTimestamp msg nowSec) db.tripUpdates
    (Or.inl ⟨_, hrow, rfl⟩)
  unfold tuKey at hk
  rw [Prod.mk.injEq, Prod.mk.injEq] at hk
  obtain ⟨hksid, hktid, hkts⟩ := hk
  have hxb : x ∈ tripUpdateRowsOf sid fv db (rtTimestamp msg nowSec)
      msg := by
    rcases foldl_ignore_subset _ _ _ hx with h | h
    · exact absurd ⟨hksid, hktid, hkts⟩ (hfresh x h)
    · exact h
  have hform := tripUpdateRowsOf_form sid fv db (rtTimestamp msg nowSec)
    msg x hxb
  refine ⟨x, ?_, hksid, hktid, hkts, ?_⟩
  · rw [hdb']
    exact hx
  · rw [hform.2.2, hktid, hunres]
    rfl

/-- A database with an active feed version and an empty trips table. -/
def c8bDb : RtDb :=
  ⟨[⟨1, "SF", none, none⟩], [⟨2, 1, "511-SF-x", 0, none, none, true⟩],
    [], []⟩

/-- Witness for the amended C8 theorem: under the active version of
`c8bDb`, trip `T9` is unresolvable, and the synced database records it
with a null trip reference. -/
theorem rt_unresolved_trip_recorded_witness :
    (getFeedContext c8bDb "SF" = .ok (1, some 2) ∧
      tripLookup c8bDb 2 ("T9".toList) = none ∧
      c8bDb.tripUpdates = []) ∧
    ∃ r ∈ (RtDb.mk c8bDb.feedSource c8bDb.feedVersion c8bDb.trips
        [⟨1, "T9".toList, none, 120, "SCHEDULED".toList, 50⟩]).tripUpdates,
      r.feedSourceId = 1 ∧ r.tripId = "T9".toList ∧
      r.updatedTime = rtTimestamp c8Msg 100 ∧ r.tripPk = none :=
  ⟨⟨rfl, rfl, rfl⟩,
    rt_unresolved_trip_recorded c8bDb "SF" c8Msg 100 1 2
      ⟨some ("e1".toList),
        some ⟨some ⟨some ("T9".toList), none⟩, some 120, []⟩, none⟩
      ⟨some ⟨some ("T9".toList), none⟩, some 120, []⟩
      ⟨some ("T9".toList), none⟩ ("T9".toList)
      (RtDb.mk c8bDb.feedSource c8bDb.feedVersion c8bDb.trips
        [⟨1, "T9".toList, none, 120, "SCHEDULED".toList, 50⟩])
      rfl (List.mem_cons_self _ _) rfl rfl rfl (by decide) rfl
      (by intro x hx; cases hx) rfl⟩

/-! ## Effective delay of a trip update (claim C9) -/

/-- A trip update whose top-level delay is present but zero, with a
first stop-time update carrying an arrival delay of 5. -/
def c9Tu : TripUpdateMsg :=
  ⟨some ⟨some ("T1".toList), none⟩, some 0,
    [⟨some ⟨some 5⟩, none⟩]⟩

/-- Counterexample to claim C9: the top-level delay field is present
(value 0), yet the stored effective delay is the first stop-time
update's arrival delay, not the top-level value — `delay || 0` treats
a present zero like an absent field. -/
theorem effective_delay_counterexample :
    c9Tu.delay = some 0 ∧ effectiveDelay c9Tu = 5 := by
  constructor
  · rfl
  · decide

/-- Claim C9 (amended): the stored effective delay is the top-level
delay when present *and non-zero*; otherwise the first stop-time
update's arrival delay when present and non-zero, else its departure
delay when present and non-zero, else zero (also when there is no
stop-time update) — a deterministic function of the decoded message. -/
theorem effective_delay_priority (tu : TripUpdateMsg) :
    (∀ d, tu.delay = some d → d ≠ 0 → effectiveDelay tu = d) ∧
    ((tu.delay = none ∨ tu.delay = some 0) → tu.stopTimeUpdate = [] →
      effectiveDelay tu = 0) ∧
    (∀ u rest, (tu.delay = none ∨ tu.delay = some 0) →
      tu.stopTimeUpdate = u :: rest →
      (∀ ad, u.arrival.bind StopTimeEvent.delay = some ad → ad ≠ 0 →
        effectiveDelay tu = ad) ∧
      ((u.arrival.bind StopTimeEvent.delay = none ∨
          u.arrival.bind StopTimeEvent.delay = some 0) →
        (∀ dd, u.departure.bind StopTimeEvent.delay = some dd → dd ≠ 0 →
          effectiveDelay tu = dd) ∧
        ((u.departure.bind StopTimeEvent.delay = none ∨
            u.departure.bind StopTimeEvent.delay = some 0) →
          effectiveDelay tu = 0))) := by
  have hz : ∀ (h : tu.delay = none ∨ tu.delay = some 0),
      jsOrI tu.delay 0 = 0 := by
    rintro (h | h) <;> rw [h] <;> simp [jsOrI]
  refine ⟨?_, ?_, ?_⟩
  · intro d hd hdne
    unfold effectiveDelay
    rw [hd]
    show (if (if d = 0 then (0 : Int) else d) = 0 then _ else
      if d = 0 then (0 : Int) else d) = d
    rw [if_neg hdne, if_neg hdne]
  · intro hdel hstu
    unfold effectiveDelay
    rw [hz hdel, hstu]
    rfl
  · intro u rest hdel hstu
    have hbase : effectiveDelay tu =
        jsOrI (u.arrival.bind StopTimeEvent.delay)
          (jsOrI (u.departure.bind StopTimeEvent.delay) 0) := by
      unfold effectiveDelay
      rw [hz hdel, hstu]
      rfl
    refine ⟨?_, ?_⟩
    · intro ad had hadne
      rw [hbase, had, jsOrI_some, if_neg hadne]
    · intro harr
      have harrz : jsOrI (u.arrival.bind StopTimeEvent.delay)
          (jsOrI (u.departure.bind StopTimeEvent.delay) 0) =
          jsOrI (u.departure.bind StopTimeEvent.delay) 0 := by
        rcases harr with h | h <;> rw [h] <;> simp [jsOrI]
      refine ⟨?_, ?_⟩
      · intro dd hdd hddne
        rw [hbase, harrz, hdd, jsOrI_some, if_neg hddne]
      · intro hdep
        rw [hbase, harrz]
        rcases hdep with h | h <;> rw [h] <;> simp [jsOrI]

/-! ## Service-alert reconciliation (claim C7)

Model of the ServiceAlerts sync step
(`Import511RealtimeWorkflow.ts` lines 186–388). -/

/-- The columns bound by the `INSERT INTO service_alerts` statement
(without the surrogate key). -/
structure AlertData where
  feedSourceId : Nat
  alertId : Option (List Char)
  header : Option (List Char)
  description : Option (List Char)
  cause : Option (List Char)
  effect : Option (List Char)
  startTime : Option Nat
  endTime : Option Nat
  severity : Option (List Char)
  routePk : Option Nat
  stopPk : Option Nat
  tripPk : Option Nat
deriving DecidableEq

/-- A stored service_alerts row: surrogate key plus the data columns. -/
structure ServiceAlertRow where
  alertPk : Nat
  data : AlertData
deriving DecidableEq

/-- `getText` (lines 327–333): first translation's text, with
`undefined`, empty translation lists and empty strings becoming
null. -/
def getText (ts : Option TranslatedString) : Option (List Char) :=
  match ts with
  | none => none
  | some t =>
    match t.translation with
    | [] => none
    | x :: _ =>
      match x with
      | none => none
      | some s => if s = [] then none else some s

/-- `a.cause ? String(a.cause) : null` (and `effect`,
`severityLevel`): a truthy (non-zero) enum value is stringified. -/
def enumStr (v : Option Nat) : Option (List Char) :=
  match v with
  | none => none
  | some n => if n = 0 then none else some (Nat.toDigits 10 n)

/-- `if (p.start) startTime = ...` on the first active period
(lines 336–342). -/
def periodStart (a : AlertMsg) : Option Nat :=
  match a.activePeriod with
  | [] => none
  | p :: _ =>
    match p.start with
    | none => none
    | some t => if t = 0 then none else some t

def periodEnd (a : AlertMsg) : Option Nat :=
  match a.activePeriod with
  | [] => none
  | p :: _ =>
    match p.endTime with
    | none => none
    | some t => if t = 0 then none else some t

/-- The snapshot's id set (lines 203–208): entities with both a
truthy alert and a truthy id. -/
def currentAlertIds (msg : FeedMessage) : List (List Char) :=
  msg.entity.filterMap (fun e =>
    match e.alert, e.id with
    | some _, some i => if i = [] then none else some i
    | _, _ => none)

/-- The open-alert condition of the closure query (lines 211–217):
`end_time IS NULL OR end_time > now`. -/
def alertOpen (now : Nat) (r : ServiceAlertRow) : Bool :=
  match r.data.endTime with
  | none => true
  | some t => now < t

/-- `UPDATE service_alerts SET end_time = ? WHERE alert_pk = ?`. -/
def setAlertEnd (r : ServiceAlertRow) (now : Nat) : ServiceAlertRow :=
  { r with data := { r.data with endTime := some now } }

/-- Whether a stored row is collected into `alertsToClose`
(lines 219–226): this source's open alerts with a truthy alert id
absent from the snapshot's id set. -/
def alertQualifies (sid now : Nat) (ids : List (List Char))
    (r : ServiceAlertRow) : Bool :=
  r.data.feedSourceId == sid && alertOpen now r &&
    (match r.data.alertId with
     | none => false
     | some i => !i.isEmpty && !(ids.contains i))

/-- The closure batch (lines 228–241): set `end_time = now` on every
collected surrogate key.  No row is removed. -/
def closeAbsentAlerts (sid now : Nat) (ids : List (List Char))
    (tbl : List ServiceAlertRow) : List ServiceAlertRow :=
  let toClose := (tbl.filter (alertQualifies sid now ids)).map (·.alertPk)
  tbl.map (fun r => if toClose.contains r.alertPk then setAlertEnd r now
    else r)

/-- The informed entities iterated for one alert (lines 346–350): the
alert's list, or a single empty selector when it is empty. -/
def entsOf (a : AlertMsg) : List EntitySelector :=
  if a.informedEntity.isEmpty then [⟨none, none, none⟩]
  else a.informedEntity

/-- `ie.routeId ? routeMap.get(ie.routeId) || null : null`
(lines 351–357). -/
def optResolve (res : List Char → Option Nat) (v : Option (List Char)) :
    Option Nat :=
  match v with
  | none => none
  | some s => if s = [] then none else truthyPk (res s)

/-- The values bound for one (alert, informed entity) pair
(lines 323–373). -/
def mkAlertData (sid : Nat) (resR resS resT : List Char → Option Nat)
    (eid : Option (List Char)) (a : AlertMsg) (ie : EntitySelector) :
    AlertData :=
  { feedSourceId := sid
    alertId := eid
    header := getText a.headerText
    description := getText a.descriptionText
    cause := enumStr a.cause
    effect := enumStr a.effect
    startTime := periodStart a
    endTime := periodEnd a
    severity := enumStr a.severityLevel
    routePk := optResolve resR ie.routeId
    stopPk := optResolve resS ie.stopId
    tripPk := optResolve resT (ie.trip.bind TripDescriptor.tripId) }

/-- The insert batch: one row per informed entity of every alert
entity, sharing that entity's alert id. -/
def alertInsertsOf (sid : Nat) (resR resS resT : List Char → Option Nat)
    (msg : FeedMessage) : List AlertData :=
  msg.entity.flatMap (fun e =>
    match e.alert with
    | none => []
    | some a => (entsOf a).map (mkAlertData sid resR resS resT e.id a))

/-- Surrogate keys for the appended batch. -/
def withPks (nextPk : Nat) : List AlertData → List ServiceAlertRow
  | [] => []
  | d :: ds => ⟨nextPk, d⟩ :: withPks (nextPk + 1) ds

/-- The whole ServiceAlerts sync against one snapshot: close the open
alerts absent from the snapshot, then insert the snapshot's rows. -/
def syncServiceAlerts (tbl : List ServiceAlertRow) (nextPk sid : Nat)
    (resR resS resT : List Char → Option Nat) (msg : FeedMessage)
    (now : Nat) : List ServiceAlertRow :=
  closeAbsentAlerts sid now (currentAlertIds msg) tbl ++
    withPks nextPk (alertInsertsOf sid resR resS resT msg)

theorem withPks_length (ds : List AlertData) :
    ∀ n, (withPks n ds).length = ds.length := by
  induction ds with
  | nil => intro n; rfl
  | cons d ds ih =>
    intro n
    rw [withPks, List.length_cons, List.length_cons, ih]

/-- Claim C7: reconciling a source against a full snapshot closes —
never deletes — every stored open alert of that source whose id is
absent from the snapshot's id set (its end_time becomes the sync
time), every stored row survives (as-is or closed), and each snapshot
alert entity contributes one inserted row per informed entity (a
single row with null route/stop/trip references when it has none), all
inserted rows sharing the entity's alert id. -/
theorem service_alert_reconciliation (tbl : List ServiceAlertRow)
    (nextPk sid now : Nat) (resR resS resT : List Char → Option Nat)
    (msg : FeedMessage) (xs ys : List FeedEntity) (e : FeedEntity)
    (a : AlertMsg)
    (hdec : msg.entity = xs ++ e :: ys)
    (halert : e.alert = some a) :
    (∀ r ∈ tbl, r.data.feedSourceId = sid → alertOpen now r = true →
      ∀ i, r.data.alertId = some i → i ≠ [] →
      i ∉ currentAlertIds msg →
      setAlertEnd r now ∈
        syncServiceAlerts tbl nextPk sid resR resS resT msg now) ∧
    ((syncServiceAlerts tbl nextPk sid resR resS resT msg now).length =
      tbl.length + (alertInsertsOf sid resR resS resT msg).length) ∧
    (∀ r ∈ tbl,
      r ∈ syncServiceAlerts tbl nextPk sid resR resS resT msg now ∨
      setAlertEnd r now ∈
        syncServiceAlerts tbl nextPk sid resR resS resT msg now) ∧
    (∃ pre post,
      alertInsertsOf sid resR resS resT msg =
        pre ++ (entsOf a).map (mkAlertData sid resR resS resT e.id a) ++
          post ∧
      (entsOf a).length = max 1 a.informedEntity.length ∧
      (∀ d ∈ (entsOf a).map (mkAlertData sid resR resS resT e.id a),
        d.alertId = e.id) ∧
      (a.informedEntity = [] →
        ∃ d, (entsOf a).map (mkAlertData sid resR resS resT e.id a) =
          [d] ∧ d.routePk = none ∧ d.stopPk = none ∧ d.tripPk = none)) := by
  refine ⟨?_, ?_, ?_, ?_⟩
  · intro r hr hfs hopen i hid hine hnotin
    have hqual : alertQualifies sid now (currentAlertIds msg) r = true := by
      unfold alertQualifies
      rw [hid, beq_iff_eq.mpr hfs, hopen]
      dsimp only
      have h1 : i.isEmpty = false := by
        cases i with
        | nil => exact absurd rfl hine
        | cons c cs => rfl
      have h2 : (currentAlertIds msg).contains i = false := by
        apply Bool.eq_false_iff.mpr
        intro hc
        exact hnotin (List.elem_iff.mp hc)
      rw [h1, h2]
      rfl
    have hin : r ∈ tbl.filter (alertQualifies sid now
        (currentAlertIds msg)) := List.mem_filter.mpr ⟨hr, hqual⟩
    have hpk : ((tbl.filter (alertQualifies sid now
        (currentAlertIds msg))).map (·.alertPk)).contains r.alertPk =
        true :=
      List.elem_iff.mpr (List.mem_map_of_mem _ hin)
    apply List.mem_append_left
    simp only [closeAbsentAlerts]
    refine List.mem_map.mpr ⟨r, hr, ?_⟩
    dsimp only
    rw [if_pos hpk]
  · unfold syncServiceAlerts closeAbsentAlerts
    rw [List.length_append, List.length_map, withPks_length]
  · intro r hr
    unfold syncServiceAlerts
    by_cases hc : ((tbl.filter (alertQualifies sid now
        (currentAlertIds msg))).map (·.alertPk)).contains r.alertPk = true
    · right
      apply List.mem_append_left
      simp only [closeAbsentAlerts]
      refine List.mem_map.mpr ⟨r, hr, ?_⟩
      dsimp only
      rw [if_pos hc]
    · left
      apply List.mem_append_left
      simp only [closeAbsentAlerts]
      refine List.mem_map.mpr ⟨r, hr, ?_⟩
      dsimp only
      rw [if_neg hc]
  · refine ⟨(xs.flatMap (fun e' =>
      match e'.alert with
      | none => []
      | some a' => (entsOf a').map (mkAlertData sid resR resS resT e'.id
        a'))),
      (ys.flatMap (fun e' =>
      match e'.alert with
      | none => []
      | some a' => (entsOf a').map (mkAlertData sid resR resS resT e'.id
        a'))), ?_, ?_, ?_, ?_⟩
    · unfold alertInsertsOf
      rw [hdec, List.flatMap_append, List.flatMap_cons]
      have : (match e.alert with
          | none => ([] : List AlertData)
          | some a' => (entsOf a').map
            (mkAlertData sid resR resS resT e.id a')) =
          (entsOf a).map (mkAlertData sid resR resS resT e.id a) := by
        rw [halert]
      rw [this, List.append_assoc]
    · unfold entsOf
      cases hie : a.informedEntity with
      | nil => rfl
      | cons x t =>
        rw [show (x :: t).isEmpty = false from rfl, if_neg
          (by exact Bool.false_ne_true)]
        rw [List.length_cons, Nat.max_def]
        split <;> omega
    · intro d hd
      obtain ⟨ie, _, hform⟩ := List.mem_map.mp hd
      rw [← hform]
      rfl
    · intro hie
      refine ⟨mkAlertData sid resR resS resT e.id a ⟨none, none, none⟩,
        ?_, rfl, rfl, rfl⟩
      unfold entsOf
      rw [hie]
      rfl

/-- A one-entity snapshot whose alert has no informed entities. -/
def c7Msg : FeedMessage :=
  ⟨none, [⟨some ("al9".toList), none,
    some ⟨[], [], none, none, none, none, none⟩⟩]⟩

/-- A stored open alert (id `al1`) of source 1, absent from `c7Msg`. -/
def c7Row : ServiceAlertRow :=
  ⟨4, ⟨1, some ("al1".toList), none, none, none, none, some 10, none,
    none, none, none, some 9⟩⟩

/-- Witness for claim C7 at a concrete table and snapshot. -/
theorem service_alert_reconciliation_witness :
    (c7Msg.entity = [] ++ (⟨some ("al9".toList), none,
        some ⟨[], [], none, none, none, none, none⟩⟩ : FeedEntity) :: [] ∧
      (⟨some ("al9".toList), none,
        some ⟨[], [], none, none, none, none, none⟩⟩ :
          FeedEntity).alert =
        some ⟨[], [], none, none, none, none, none⟩) ∧
    ((∀ r ∈ [c7Row], r.data.feedSourceId = 1 → alertOpen 99 r = true →
      ∀ i, r.data.alertId = some i → i ≠ [] →
      i ∉ currentAlertIds c7Msg →
      setAlertEnd r 99 ∈
        syncServiceAlerts [c7Row] 5 1 (fun _ => none) (fun _ => none)
          (fun _ => none) c7Msg 99) ∧
    ((syncServiceAlerts [c7Row] 5 1 (fun _ => none) (fun _ => none)
        (fun _ => none) c7Msg 99).length =
      [c7Row].length + (alertInsertsOf 1 (fun _ => none) (fun _ => none)
        (fun _ => none) c7Msg).length) ∧
    (∀ r ∈ [c7Row],
      r ∈ syncServiceAlerts [c7Row] 5 1 (fun _ => none) (fun _ => none)
        (fun _ => none) c7Msg 99 ∨
      setAlertEnd r 99 ∈
        syncServiceAlerts [c7Row] 5 1 (fun _ => none) (fun _ => none)
          (fun _ => none) c7Msg 99) ∧
    (∃ pre post,
      alertInsertsOf 1 (fun _ => none) (fun _ => none) (fun _ => none)
          c7Msg =
        pre ++ (entsOf ⟨[], [], none, none, none, none, none⟩).map
          (mkAlertData 1 (fun _ => none) (fun _ => none) (fun _ => none)
            (some ("al9".toList)) ⟨[], [], none, none, none, none, none⟩)
          ++ post ∧
      (entsOf ⟨[], [], none, none, none, none, none⟩).length =
        max 1 (⟨[], [], none, none, none, none, none⟩ :
          AlertMsg).informedEntity.length ∧
      (∀ d ∈ (entsOf ⟨[], [], none, none, none, none, none⟩).map
          (mkAlertData 1 (fun _ => none) (fun _ => none) (fun _ => none)
            (some ("al9".toList))
            ⟨[], [], none, none, none, none, none⟩),
        d.alertId = some ("al9".toList)) ∧
      ((⟨[], [], none, none, none, none, none⟩ :
          AlertMsg).informedEntity = [] →
        ∃ d, (entsOf ⟨[], [], none, none, none, none, none⟩).map
            (mkAlertData 1 (fun _ => none) (fun _ => none)
              (fun _ => none) (some ("al9".toList))
              ⟨[], [], none, none, none, none, none⟩) =
          [d] ∧ d.routePk = none ∧ d.stopPk = none ∧ d.tripPk = none))) :=
  ⟨⟨rfl, rfl⟩,
    service_alert_reconciliation [c7Row] 5 1 99 (fun _ => none)
      (fun _ => none) (fun _ => none) c7Msg [] []
      ⟨some ("al9".toList), none,
        some ⟨[], [], none, none, none, none, none⟩⟩
      ⟨[], [], none, none, none, none, none⟩ rfl rfl⟩

/-! ## batchExecute (claim C10)

Model of `batchExecute` (`Import511Workflow.ts` lines 184–206): the
outer loop advances by `chunkSize * concurrency`; the inner loop
submits up to `concurrency` slices of `chunkSize` statements
(skipping empty slices); `db.batch` returns one result per statement
in statement order, and the per-round results are concatenated in
submission order.  `db.batch chunk` is modelled as `chunk.map exec`
for an arbitrary result function `exec`. -/

def batchChunksGo {α : Type} (cs cc : Nat) (stmts : List α) :
    Nat → Nat → List (List α)
  | 0, _ => []
  | fuel + 1, i =>
    if i < stmts.length then
      ((List.range cc).filterMap (fun j =>
        if ((stmts.drop (i + j * cs)).take cs).isEmpty then none
        else some ((stmts.drop (i + j * cs)).take cs))) ++
        batchChunksGo cs cc stmts fuel (i + cs * cc)
    else []

/-- The sequence of chunks submitted to the store, in submission
order. -/
def batchChunks {α : Type} (stmts : List α) (cs cc : Nat) :
    List (List α) :=
  batchChunksGo cs cc stmts stmts.length 0

/-- The concatenated results returned by `batchExecute`. -/
def batchExecute {α β : Type} (exec : α → β) (stmts : List α)
    (cs cc : Nat) : List β :=
  ((batchChunks stmts cs cc).map (fun c => c.map exec)).flatten

theorem join_map_map {α β : Type} (f : α → β) (L : List (List α)) :
    (L.map (fun c => c.map f)).flatten = L.flatten.map f := by
  induction L with
  | nil => rfl
  | cons c cs ih =>
    rw [List.map_cons, List.flatten_cons, List.flatten_cons, List.map_append,
      ih]

/-- One round of the inner loop covers exactly the next
`chunkSize * concurrency` statements. -/
theorem innerChunks_join {α : Type} (stmts : List α) (cs : Nat)
    (hcs : 0 < cs) :
    ∀ (cc i : Nat),
      ((List.range cc).filterMap (fun j =>
        if ((stmts.drop (i + j * cs)).take cs).isEmpty then none
        else some ((stmts.drop (i + j * cs)).take cs))).flatten =
      (stmts.drop i).take (cs * cc) := by
  intro cc
  induction cc with
  | zero =>
    intro i
    rw [Nat.mul_zero]
    rfl
  | succ n ih =>
    intro i
    rw [List.range_succ, List.filterMap_append, List.flatten_append, ih i]
    by_cases hemp : ((stmts.drop (i + n * cs)).take cs).isEmpty = true
    · rw [show ([n].filterMap (fun j =>
        if ((stmts.drop (i + j * cs)).take cs).isEmpty then none
        else some ((stmts.drop (i + j * cs)).take cs))) = [] from by
          rw [List.filterMap_cons, if_pos hemp]
          rfl]
      have hnil : stmts.drop (i + n * cs) = [] := by
        have hi := List.isEmpty_iff.mp hemp
        cases hd : stmts.drop (i + n * cs) with
        | nil => rfl
        | cons x t =>
          exfalso
          rw [hd] at hi
          obtain ⟨k, hk⟩ := Nat.exists_eq_add_of_lt hcs
          rw [show cs = k + 1 from by omega] at hi
          cases hi
      have hle : stmts.length ≤ i + n * cs :=
        List.drop_eq_nil_iff.mp hnil
      rw [Nat.mul_comm n cs] at hle
      have h1 : (stmts.drop i).length ≤ cs * n := by
        rw [List.length_drop]
        omega
      have h2 : (stmts.drop i).length ≤ cs * (n + 1) := by
        rw [List.length_drop, Nat.mul_succ]
        omega
      rw [List.flatten_nil, List.append_nil, List.take_of_length_le h1,
        List.take_of_length_le h2]
    · rw [show ([n].filterMap (fun j =>
        if ((stmts.drop (i + j * cs)).take cs).isEmpty then none
        else some ((stmts.drop (i + j * cs)).take cs))) =
          [(stmts.drop (i + n * cs)).take cs] from by
          rw [List.filterMap_cons, if_neg hemp]
          rfl]
      rw [List.flatten_cons, List.flatten_nil, List.append_nil]
      rw [Nat.mul_succ, List.take_add, List.drop_drop]
      rw [show i + cs * n = i + n * cs from by rw [Nat.mul_comm]]

/-- The outer loop consumes the statements from the current offset to
the end. -/
theorem batchChunksGo_flatten {α : Type} (stmts : List α) (cs cc : Nat)
    (hcs : 0 < cs) (hcc : 0 < cc) :
    ∀ (fuel i : Nat), stmts.length - i ≤ fuel →
      (batchChunksGo cs cc stmts fuel i).flatten = stmts.drop i := by
  intro fuel
  induction fuel with
  | zero =>
    intro i hf
    show ([] : List (List α)).flatten = stmts.drop i
    rw [List.flatten_nil]
    exact (List.drop_eq_nil_of_le (by omega)).symm
  | succ fuel ih =>
    intro i hf
    have hpos : 0 < cs * cc := Nat.mul_pos hcs hcc
    by_cases hi : i < stmts.length
    · have hstep : batchChunksGo cs cc stmts (fuel + 1) i =
          ((List.range cc).filterMap (fun j =>
            if ((stmts.drop (i + j * cs)).take cs).isEmpty then none
            else some ((stmts.drop (i + j * cs)).take cs))) ++
            batchChunksGo cs cc stmts fuel (i + cs * cc) := by
        simp only [batchChunksGo]
        rw [if_pos hi]
      rw [hstep, List.flatten_append, innerChunks_join stmts cs hcs cc i,
        ih (i + cs * cc) (by omega), ← List.drop_drop]
      exact List.take_append_drop _ _
    · have hstep : batchChunksGo cs cc stmts (fuel + 1) i = [] := by
        simp only [batchChunksGo]
        rw [if_neg hi]
      rw [hstep, List.flatten_nil]
      exact (List.drop_eq_nil_of_le (by omega)).symm

/-- Claim C10: for every statement list and positive chunk size and
concurrency, the chunk sequence submitted by `batchExecute` is exactly
the input list split in order (each statement submitted once, in
position order), and the returned results array has the input's length
with its i-th entry the result of the i-th input statement. -/
theorem batchExecute_order {α β : Type} (exec : α → β) (stmts : List α)
    (cs cc : Nat) (hcs : 0 < cs) (hcc : 0 < cc) :
    (batchChunks stmts cs cc).flatten = stmts ∧
    batchExecute exec stmts cs cc = stmts.map exec ∧
    (batchExecute exec stmts cs cc).length = stmts.length ∧
    ∀ k : Nat, (batchExecute exec stmts cs cc)[k]? = stmts[k]?.map exec := by
  have h1 : (batchChunks stmts cs cc).flatten = stmts := by
    unfold batchChunks
    rw [batchChunksGo_flatten stmts cs cc hcs hcc stmts.length 0
      (by omega)]
    exact List.drop_zero stmts
  have h2 : batchExecute exec stmts cs cc = stmts.map exec := by
    unfold batchExecute
    rw [join_map_map, h1]
  refine ⟨h1, h2, ?_, ?_⟩
  · rw [h2]
    exact List.length_map stmts exec
  · intro k
    rw [h2]
    exact List.getElem?_map exec stmts k

/-- Concrete inputs for the C10 witness. -/
def c10Stmts : List Nat := [10, 11, 12, 13, 14]

/-- Witness for claim C10: five statements, chunk size 2, concurrency
2. -/
theorem batchExecute_order_witness :
    (0 < 2 ∧ 0 < 2) ∧
    ((batchChunks c10Stmts 2 2).flatten = c10Stmts ∧
      batchExecute (fun n => n * 2) c10Stmts 2 2 =
        c10Stmts.map (fun n => n * 2) ∧
      (batchExecute (fun n => n * 2) c10Stmts 2 2).length =
        c10Stmts.length ∧
      ∀ k : Nat, (batchExecute (fun n => n * 2) c10Stmts 2 2)[k]? =
        c10Stmts[k]?.map (fun n => n * 2)) :=
  ⟨⟨by decide, by decide⟩,
    batchExecute_order (fun n => n * 2) c10Stmts 2 2 (by decide)
      (by decide)⟩

/-- A trip update with a non-zero top-level delay. -/
def c9WitTu : TripUpdateMsg :=
  ⟨some ⟨some ("T2".toList), none⟩, some 7, [⟨none, some ⟨some 3⟩⟩]⟩

/-- Witness for the amended C9 theorem: a present non-zero top-level
delay wins over the stop-time updates. -/
theorem effective_delay_priority_witness :
    c9WitTu.delay = some 7 ∧ (7 : Int) ≠ 0 ∧ effectiveDelay c9WitTu = 7 :=
  ⟨rfl, by decide, (effective_delay_priority c9WitTu).1 7 rfl (by decide)⟩

end Gtfs
